import Mathlib

/-!
Verification of the core of the Rusty-Raytracing renderer: the interval /
AABB math substrate, sphere intersection, metal scattering, the recursive
integrator, BVH construction and traversal, and their relation to the
brute-force linear scan.

Numbers: the Rust code computes with `f64`.  Finite values are modelled by
exact rationals (`ℚ`); where the code genuinely relies on IEEE-754 special
values (interval bounds of `±inf`, division by zero in the slab test, the
`EMPTY` interval) we use `EF`, rationals extended with `negInf`, `posInf`
and `nan`, with IEEE-754 arithmetic and comparison semantics (`inf - inf =
nan`, `0 * inf = nan`, every comparison against `nan` is false).  Rounding
and signed zero are not modelled: `fin 0` models `+0.0`, so `1/0 = posInf`
as for `+0.0` in IEEE.  `f64::sqrt` is modelled by an exact computable
square root on numerator and denominator, which is exact on perfect-square
rationals (all concrete inputs used below) and, like the floating-point
original, inexact elsewhere.
-/

namespace RR

/-- Computable floor square root on `ℕ` (counts `j ∈ [1..n]` with `j² ≤ n`),
used as the executable model of the square-root primitive. -/
def natSqrt (n : ℕ) : ℕ :=
  (List.range (n + 1)).countP (fun k => (k + 1) * (k + 1) ≤ n)

/-- Floor square root on `ℤ`, zero on negatives (the code only takes square
roots of non-negative discriminants). -/
def intSqrt (i : ℤ) : ℤ :=
  (natSqrt i.toNat : ℤ)

/-- Model of `f64::sqrt` on finite values: componentwise integer square
root, exact on perfect-square rationals. -/
def ratSqrt (q : ℚ) : ℚ :=
  (intSqrt q.num : ℚ) / (natSqrt q.den : ℚ)

/-- `f64` model: a rational, `±inf`, or `nan`. -/
inductive EF : Type where
  | nan : EF
  | negInf : EF
  | posInf : EF
  | fin (q : ℚ) : EF
deriving DecidableEq

namespace EF

/-- IEEE negation. -/
def neg : EF → EF
  | nan => nan
  | negInf => posInf
  | posInf => negInf
  | fin q => fin (-q)

/-- IEEE addition (`inf + (-inf) = nan`). -/
def add : EF → EF → EF
  | nan, _ => nan
  | _, nan => nan
  | posInf, negInf => nan
  | negInf, posInf => nan
  | posInf, _ => posInf
  | _, posInf => posInf
  | negInf, _ => negInf
  | _, negInf => negInf
  | fin p, fin q => fin (p + q)

/-- IEEE subtraction, `a - b = a + (-b)` (exact in our rational model). -/
def sub (a b : EF) : EF := add a (neg b)

/-- IEEE multiplication (`0 * inf = nan`). -/
def mul : EF → EF → EF
  | nan, _ => nan
  | _, nan => nan
  | posInf, posInf => posInf
  | posInf, negInf => negInf
  | negInf, posInf => negInf
  | negInf, negInf => posInf
  | posInf, fin q => if 0 < q then posInf else if q < 0 then negInf else nan
  | negInf, fin q => if 0 < q then negInf else if q < 0 then posInf else nan
  | fin q, posInf => if 0 < q then posInf else if q < 0 then negInf else nan
  | fin q, negInf => if 0 < q then negInf else if q < 0 then posInf else nan
  | fin p, fin q => fin (p * q)

/-- IEEE division; division of a nonzero finite by (unsigned) zero yields
the infinity signed by the numerator, as for `+0.0`. -/
def div : EF → EF → EF
  | nan, _ => nan
  | _, nan => nan
  | posInf, posInf => nan
  | posInf, negInf => nan
  | negInf, posInf => nan
  | negInf, negInf => nan
  | posInf, fin q => if 0 ≤ q then posInf else negInf
  | negInf, fin q => if 0 ≤ q then negInf else posInf
  | fin _, posInf => fin 0
  | fin _, negInf => fin 0
  | fin p, fin q =>
      if q = 0 then (if p = 0 then nan else if 0 < p then posInf else negInf)
      else fin (p / q)

/-- IEEE `<=`: false whenever either side is `nan`. -/
def le : EF → EF → Bool
  | nan, _ => false
  | _, nan => false
  | negInf, _ => true
  | _, posInf => true
  | posInf, _ => false
  | fin _, negInf => false
  | fin p, fin q => decide (p ≤ q)

/-- IEEE `<`: false whenever either side is `nan`. -/
def lt : EF → EF → Bool
  | nan, _ => false
  | _, nan => false
  | negInf, negInf => false
  | negInf, _ => true
  | posInf, _ => false
  | fin _, posInf => true
  | fin _, negInf => false
  | fin p, fin q => decide (p < q)

/-- `f64::total_cmp`-induced `<=` used by the BVH comparator: a total order
with `nan` greatest (the sign of a `nan` payload is not modelled). -/
def totalLe : EF → EF → Bool
  | _, nan => true
  | nan, _ => false
  | negInf, _ => true
  | _, negInf => false
  | _, posInf => true
  | posInf, _ => false
  | fin p, fin q => decide (p ≤ q)

/-- The value is not a `nan`. -/
def IsNum : EF → Prop
  | nan => False
  | _ => True

/-- The value is finite. -/
def IsFin : EF → Prop
  | fin _ => True
  | _ => False

instance : DecidablePred IsNum := fun a =>
  match a with
  | nan => isFalse id
  | negInf => isTrue trivial
  | posInf => isTrue trivial
  | fin _ => isTrue trivial

instance : DecidablePred IsFin := fun a =>
  match a with
  | nan => isFalse id
  | negInf => isFalse id
  | posInf => isFalse id
  | fin _ => isTrue trivial

end EF

/-- `vec3.rs`: 3-vector over the finite-value model (point / direction /
color dual use, as in the source where `Point3` and `Color` alias `Vec3`). -/
structure Vec3 : Type where
  x : ℚ
  y : ℚ
  z : ℚ
deriving DecidableEq

namespace Vec3

instance : Neg Vec3 := ⟨fun v => ⟨-v.x, -v.y, -v.z⟩⟩

instance : Add Vec3 := ⟨fun a b => ⟨a.x + b.x, a.y + b.y, a.z + b.z⟩⟩

/-- `Sub for Vec3`: the source defines it as `self + (-rhs)`. -/
instance : Sub Vec3 := ⟨fun a b => a + (-b)⟩

/-- Component-wise `Mul for Vec3`. -/
instance : Mul Vec3 := ⟨fun a b => ⟨a.x * b.x, a.y * b.y, a.z * b.z⟩⟩

/-- `Mul<Vec3> for f64` (left scalar multiplication). -/
def smul (s : ℚ) (v : Vec3) : Vec3 := ⟨s * v.x, s * v.y, s * v.z⟩

/-- `Div<f64> for Vec3`: the source multiplies by `1.0 / rhs`. -/
def divs (v : Vec3) (s : ℚ) : Vec3 := smul (1 / s) v

def length_squared (v : Vec3) : ℚ := v.x * v.x + v.y * v.y + v.z * v.z

def length (v : Vec3) : ℚ := ratSqrt v.length_squared

def dot (a b : Vec3) : ℚ := a.x * b.x + a.y * b.y + a.z * b.z

def cross (a b : Vec3) : Vec3 :=
  ⟨a.y * b.z - a.z * b.y, a.z * b.x - a.x * b.z, a.x * b.y - a.y * b.x⟩

def unit_vector (v : Vec3) : Vec3 := divs v v.length

/-- `near_zero`: every component has absolute value below `1e-8`. -/
def near_zero (v : Vec3) : Bool :=
  |v.x| < 1 / 100000000 && |v.y| < 1 / 100000000 && |v.z| < 1 / 100000000

/-- `reflect`: `self - 2*dot(self,n)*n`. -/
def reflect (v n : Vec3) : Vec3 := v - smul (2 * v.dot n) n

/-- `refract` (Snell), with `sqrt`/`abs` exactly as in the source. -/
def refract (v n : Vec3) (etai_over_etat : ℚ) : Vec3 :=
  let cos_theta := min ((-v).dot n) 1
  let r_out_perp := smul etai_over_etat (v + smul cos_theta n)
  let r_out_parallel := smul (-(ratSqrt |1 - r_out_perp.length_squared|)) n
  r_out_perp + r_out_parallel

/-- Indexing (`v[0] = x`, `v[1] = y`, anything else `z` for our uses). -/
def comp (v : Vec3) : ℕ → ℚ
  | 0 => v.x
  | 1 => v.y
  | _ => v.z

end Vec3

/-- `ray.rs`: origin, direction, sample time. -/
structure Ray : Type where
  orig : Vec3
  dir : Vec3
  tm : ℚ
deriving DecidableEq

namespace Ray

/-- `Ray::at`: `origin + t*direction` (named `atT` because `at` is a Lean
keyword). -/
def atT (r : Ray) (t : ℚ) : Vec3 := r.orig + Vec3.smul t r.dir

end Ray

/-- `interval.rs`: a pair of `f64` bounds. -/
structure Interval : Type where
  min : EF
  max : EF
deriving DecidableEq

namespace Interval

/-- `Interval::new`. -/
def new (mn mx : EF) : Interval := ⟨mn, mx⟩

/-- `Interval::size`: `max - min`. -/
def size (i : Interval) : EF := EF.sub i.max i.min

/-- `Interval::contains` (closed): `min <= x && x <= max`. -/
def contains (i : Interval) (x : EF) : Bool := EF.le i.min x && EF.le x i.max

/-- `Interval::surrounds` (open): `min < x && x < max`. -/
def surrounds (i : Interval) (x : EF) : Bool := EF.lt i.min x && EF.lt x i.max

/-- `Interval::expand`: symmetric padding by `delta/2` on each side (called
only with finite `delta`). -/
def expand (i : Interval) (delta : ℚ) : Interval :=
  new (EF.sub i.min (EF.fin (delta / 2))) (EF.add i.max (EF.fin (delta / 2)))

/-- `From<(Interval, Interval)>`: component-wise min of mins, max of maxes,
selected with the source's `<=` / `>=` comparisons. -/
def union (a b : Interval) : Interval :=
  ⟨if EF.le a.min b.min then a.min else b.min,
   if EF.le b.max a.max then a.max else b.max⟩

/-- `interval::EMPTY` (also `Interval::default()`): `min = +inf, max = -inf`. -/
def EMPTY : Interval := ⟨EF.posInf, EF.negInf⟩

/-- `interval::UNIVERSE`. -/
def UNIVERSE : Interval := ⟨EF.negInf, EF.posInf⟩

/-- Both bounds are non-`nan`. -/
def IsNum (i : Interval) : Prop := i.min.IsNum ∧ i.max.IsNum

/-- Both bounds are finite. -/
def IsFin (i : Interval) : Prop := i.min.IsFin ∧ i.max.IsFin

instance : DecidablePred IsNum := fun i =>
  @instDecidableAnd _ _ inferInstance inferInstance

instance : DecidablePred IsFin := fun i =>
  @instDecidableAnd _ _ inferInstance inferInstance

end Interval

/-- `aabb.rs`: axis-aligned box from three intervals. -/
structure AABB : Type where
  x : Interval
  y : Interval
  z : Interval
deriving DecidableEq

namespace AABB

/-- `AABB::axis_interval`: `1 ↦ y`, `2 ↦ z`, anything else `x`. -/
def axis_interval (b : AABB) (n : ℕ) : Interval :=
  if n = 1 then b.y else if n = 2 then b.z else b.x

/-- `AABB::pad_to_minimums`: expand every axis whose size is below `0.0001`. -/
def pad_to_minimums (b : AABB) : AABB :=
  let delta : ℚ := 1 / 10000
  ⟨if EF.lt b.x.size (EF.fin delta) then b.x.expand delta else b.x,
   if EF.lt b.y.size (EF.fin delta) then b.y.expand delta else b.y,
   if EF.lt b.z.size (EF.fin delta) then b.z.expand delta else b.z⟩

/-- `AABB::new`: store the three intervals, then pad. -/
def new (x y z : Interval) : AABB := pad_to_minimums ⟨x, y, z⟩

/-- `From<(Point3, Point3)>`: order each axis pair, then pad. -/
def fromPoints (a b : Vec3) : AABB :=
  pad_to_minimums
    ⟨if a.x ≤ b.x then ⟨EF.fin a.x, EF.fin b.x⟩ else ⟨EF.fin b.x, EF.fin a.x⟩,
     if a.y ≤ b.y then ⟨EF.fin a.y, EF.fin b.y⟩ else ⟨EF.fin b.y, EF.fin a.y⟩,
     if a.z ≤ b.z then ⟨EF.fin a.z, EF.fin b.z⟩ else ⟨EF.fin b.z, EF.fin a.z⟩⟩

/-- `From<(AABB, AABB)>`: interval union on each axis (no padding). -/
def union (b0 b1 : AABB) : AABB :=
  ⟨Interval.union b0.x b1.x, Interval.union b0.y b1.y, Interval.union b0.z b1.z⟩

/-- `aabb::EMPTY`: every axis is the empty interval. -/
def EMPTY : AABB := ⟨Interval.EMPTY, Interval.EMPTY, Interval.EMPTY⟩

/-- `AABB::longest_axis`: `x` wins only when strictly larger than both `y`
and `z`; otherwise `y` wins when strictly larger than `z`; otherwise `z`. -/
def longest_axis (b : AABB) : ℕ :=
  if EF.lt b.y.size b.x.size && EF.lt b.z.size b.x.size then 0
  else if EF.lt b.z.size b.y.size then 1
  else 2

/-- One iteration of the slab-test loop in `AABB::hit`: narrow the running
interval `rt` through the axis slab `ax` given the ray's origin and
direction components on that axis.  `adinv = 1.0 / direction` is IEEE
division, so a zero direction component produces `posInf`. -/
def slabStep (ax : Interval) (o d : ℚ) (rt : Interval) : Interval :=
  let adinv := EF.div (EF.fin 1) (EF.fin d)
  let t0 := EF.mul (EF.sub ax.min (EF.fin o)) adinv
  let t1 := EF.mul (EF.sub ax.max (EF.fin o)) adinv
  if EF.lt t0 t1 then
    ⟨if EF.lt rt.min t0 then t0 else rt.min,
     if EF.lt t1 rt.max then t1 else rt.max⟩
  else
    ⟨if EF.lt rt.min t1 then t1 else rt.min,
     if EF.lt t0 rt.max then t0 else rt.max⟩

/-- `AABB::hit`: the three slab iterations with the source's early exit as
soon as the running interval becomes empty (`max <= min`). -/
def hit (b : AABB) (r : Ray) (rt : Interval) : Bool :=
  let rt1 := slabStep b.x r.orig.x r.dir.x rt
  if EF.le rt1.max rt1.min then false
  else
    let rt2 := slabStep b.y r.orig.y r.dir.y rt1
    if EF.le rt2.max rt2.min then false
    else
      let rt3 := slabStep b.z r.orig.z r.dir.z rt2
      if EF.le rt3.max rt3.min then false else true

/-- All six bounds are non-`nan`. -/
def IsNum (b : AABB) : Prop := b.x.IsNum ∧ b.y.IsNum ∧ b.z.IsNum

/-- All six bounds are finite. -/
def IsFin (b : AABB) : Prop := b.x.IsFin ∧ b.y.IsFin ∧ b.z.IsFin

instance : DecidablePred IsNum := fun b =>
  @instDecidableAnd _ _ inferInstance (@instDecidableAnd _ _ inferInstance inferInstance)

instance : DecidablePred IsFin := fun b =>
  @instDecidableAnd _ _ inferInstance (@instDecidableAnd _ _ inferInstance inferInstance)

end AABB

/-- `primitive.rs` `Sphere` (static or moving).  The material reference is
irrelevant to the intersection claims and is omitted; the texture
parameterization `(u, v)` of a hit (computed with `acos`/`atan2`/`π`) is
transcendental and likewise omitted — no claim concerns it. -/
structure Sphere : Type where
  center1 : Vec3
  radius : ℚ
  is_moving : Bool
  center_vec : Vec3
deriving DecidableEq

/-- The part of `HitRecord` produced by `Sphere::hit` that the claims
mention: parametric distance, hit point, flipped normal, orientation flag. -/
structure SHitRecord : Type where
  t : ℚ
  p : Vec3
  normal : Vec3
  front_face : Bool
deriving DecidableEq

namespace Sphere

/-- `Sphere::sphere_center`: keyframe interpolation by the ray time. -/
def sphere_center (s : Sphere) (time : ℚ) : Vec3 :=
  s.center1 + Vec3.smul time s.center_vec

/-- The center used by `Sphere::hit`: interpolated for moving spheres. -/
def hitCenter (s : Sphere) (r : Ray) : Vec3 :=
  if s.is_moving then s.sphere_center r.tm else s.center1

/-- The quadratic coefficient `a = direction.length_squared()`. -/
def qa (s : Sphere) (r : Ray) : ℚ := r.dir.length_squared

/-- The half-discriminant linear term `h = direction.dot(oc)`. -/
def qh (s : Sphere) (r : Ray) : ℚ := r.dir.dot (s.hitCenter r - r.orig)

/-- The constant term `c = oc.length_squared() - radius*radius`. -/
def qc (s : Sphere) (r : Ray) : ℚ :=
  (s.hitCenter r - r.orig).length_squared - s.radius * s.radius

/-- `discriminant = h*h - a*c`. -/
def discriminant (s : Sphere) (r : Ray) : ℚ :=
  s.qh r * s.qh r - s.qa r * s.qc r

/-- The nearer quadratic root `(h - sqrtd) / a`. -/
def root1 (s : Sphere) (r : Ray) : ℚ :=
  (s.qh r - ratSqrt (s.discriminant r)) / s.qa r

/-- The farther quadratic root `(h + sqrtd) / a`. -/
def root2 (s : Sphere) (r : Ray) : ℚ :=
  (s.qh r + ratSqrt (s.discriminant r)) / s.qa r

/-- The record built for an accepted root: hit point, normal scaled by
`1/radius` and flipped to face the ray, `front_face` flag. -/
def buildRec (s : Sphere) (r : Ray) (t : ℚ) : SHitRecord :=
  let p := r.atT t
  let normal := Vec3.divs (p - s.hitCenter r) s.radius
  let front_face := r.dir.dot normal < 0
  ⟨t, p, if front_face then normal else -normal, front_face⟩

/-- `impl Hittable for Sphere::hit`: half-discriminant quadratic, nearer
root first, farther root only if the nearer is outside the open interval
(the local variables of the source are the named definitions above). -/
def hit (s : Sphere) (r : Ray) (ray_t : Interval) : Option SHitRecord :=
  if s.discriminant r < 0 then none
  else if ray_t.surrounds (EF.fin (s.root1 r)) then some (s.buildRec r (s.root1 r))
  else if ray_t.surrounds (EF.fin (s.root2 r)) then some (s.buildRec r (s.root2 r))
  else none

/-- `Sphere::new`: a static sphere; the radius is clamped to `max(0, r)`,
`center_vec` defaults to zero. -/
def new (center : Vec3) (radius : ℚ) : Sphere :=
  ⟨center, max radius 0, false, ⟨0, 0, 0⟩⟩

end Sphere

/-- The `Texture` collaborator contract: `value(u, v, point) -> Color`
(colors are `Vec3`, as in the source's `Color` alias). -/
def TextureFn : Type := ℚ → ℚ → Vec3 → Vec3

/-- `material.rs`: the `Material` enum exactly as declared in the source —
four variants.  (`primitive.rs` also mentions `Material::Isotropic`, which
does not exist in this enum; see the claim about it.) -/
inductive Material : Type where
  | lambertian (tex : TextureFn) : Material
  | metal (albedo : Vec3) (fuzz : ℚ) : Material
  | dielectric (refraction_index : ℚ) : Material
  | diffuseLight (tex : TextureFn) : Material

/-- The fields of `HitRecord` that `Material::scatter` and
`Material::emitted` read (everything except the material reference). -/
structure HitData : Type where
  p : Vec3
  normal : Vec3
  t : ℚ
  u : ℚ
  v : ℚ
  front_face : Bool

namespace Material

/-- `Material::scatter`.  The source draws randomness from a thread-local
generator; the draws are passed explicitly: `rand_unit` models the
`Vec3::random_unit_vector()` draw and `rand01` the `random_double()` draw,
so one call of this function is one evaluation of the source arm with those
draws.  The catch-all `_ => None` arm of the source covers `DiffuseLight`. -/
def scatter (m : Material) (rand_unit : Vec3) (rand01 : ℚ) (r_in : Ray)
    (rec : HitData) : Option (Ray × Vec3) :=
  match m with
  | lambertian tex =>
      let scatter_direction := rec.normal + rand_unit
      let scatter_direction :=
        if scatter_direction.near_zero then rec.normal else scatter_direction
      some (⟨rec.p, scatter_direction, r_in.tm⟩, tex rec.u rec.v rec.p)
  | metal albedo fuzz =>
      let fuzz := min fuzz 1
      let reflected := r_in.dir.reflect rec.normal
      let reflected := reflected.unit_vector + Vec3.smul fuzz rand_unit
      if reflected.dot rec.normal > 0 then
        some (⟨rec.p, reflected, r_in.tm⟩, albedo)
      else none
  | dielectric refraction_index =>
      let attenuation : Vec3 := ⟨1, 1, 1⟩
      let ri := if rec.front_face then 1 / refraction_index else refraction_index
      let unit_d := r_in.dir.unit_vector
      let cos_theta := min ((-unit_d).dot rec.normal) 1
      let sin_theta := ratSqrt (1 - cos_theta * cos_theta)
      let reflectance :=
        let r0 := (1 - ri) / (1 + ri)
        let r0 := r0 * r0
        r0 + (1 - r0) * (1 - cos_theta) ^ 5
      let direction :=
        if ri * sin_theta > 1 || reflectance > rand01 then
          unit_d.reflect rec.normal
        else unit_d.refract rec.normal ri
      some (⟨rec.p, direction, r_in.tm⟩, attenuation)
  | diffuseLight _ => none

/-- `Material::emitted`: texture lookup for `DiffuseLight`, otherwise the
default (black) color. -/
def emitted (m : Material) (u v : ℚ) (p : Vec3) : Vec3 :=
  match m with
  | diffuseLight tex => tex u v p
  | _ => ⟨0, 0, 0⟩

end Material

/-- `HitRecord` as the integrator consumes it: hit data plus the material. -/
structure HitRecord : Type where
  data : HitData
  mat : Material

/-- The scene passed to the integrator, abstracted (as in the source) to a
`Hittable`: any function from a ray and a valid interval to an optional hit.
The per-bounce random draws consumed by `Material::scatter` are supplied by
`draws`, indexed by remaining depth. -/
def Camera.ray_color (world : Ray → Interval → Option HitRecord)
    (background : Vec3) (draws : ℤ → Vec3 × ℚ) (r : Ray) (depth : ℤ) : Vec3 :=
  if h : depth ≤ 0 then ⟨0, 0, 0⟩
  else
    match world r (Interval.new (EF.fin (1 / 1000)) EF.posInf) with
    | some rec =>
        let color_from_emission := rec.mat.emitted rec.data.u rec.data.v rec.data.p
        match rec.mat.scatter (draws depth).1 (draws depth).2 r rec.data with
        | some (scattered, attenuation) =>
            color_from_emission +
              attenuation * Camera.ray_color world background draws scattered (depth - 1)
        | none => color_from_emission
    | none => background
termination_by depth.toNat
decreasing_by
  simp only [not_le] at h
  omega

/-- The record a `Hittable`'s hit returns, as the BVH/list layer observes
it: the parametric distance and the identity of the primitive that produced
it (standing for the rest of the `HitRecord` payload, which is a function
of the primitive and `t`). -/
structure HitRec : Type where
  t : ℚ
  id : ℕ
deriving DecidableEq

/-- A `dyn Hittable` trait object as `bvh.rs` and the list container see
it: a precomputed bounding box and a hit function. -/
structure Prim : Type where
  bbox : AABB
  hit : Ray → Interval → Option HitRec

/-- `impl Hittable for HittableList::hit`: fold over the objects, starting
from `(ray_t.max, None)`, querying each object on
`Interval::new(ray_t.min, closest)` and updating the pair on a hit. -/
def listHit (ps : List Prim) (r : Ray) (ray_t : Interval) : Option HitRec :=
  (ps.foldl
      (fun acc object =>
        match object.hit r (Interval.new ray_t.min acc.1) with
        | some temp_rec => (EF.fin temp_rec.t, some temp_rec)
        | none => acc)
      ((ray_t.max, none) : EF × Option HitRec)).2

/-- `BVHNode::box_compare` as a boolean `<=`: compare the minima of the
bounding-box intervals along the chosen axis with `f64::total_cmp`. -/
def boxCompareLe (axis : ℕ) (a b : Prim) : Bool :=
  EF.totalLe (a.bbox.axis_interval axis).min (b.bbox.axis_interval axis).min

/-- Stable insertion into a sorted list (insert after equal keys). -/
def insertSorted (le : Prim → Prim → Bool) (a : Prim) : List Prim → List Prim
  | [] => [a]
  | b :: l => if le b a then b :: insertSorted le a l else a :: b :: l

/-- Stable sort.  `slice::sort_by` is a stable sort; any stable sort with
the same total preorder produces the identical output, so stable insertion
sort is extensionally the sort the source performs. -/
def sortBy (le : Prim → Prim → Bool) : List Prim → List Prim
  | [] => []
  | a :: l => insertSorted le a (sortBy le l)

/-- The tree `BVHNode::new` builds: the source struct has `Option` left /
right children and an `Option` object with the invariant that a node is
either internal (both children, no object) or a leaf (object, no
children); that tagged union is represented directly. -/
inductive BVHTree : Type where
  | leaf (bbox : AABB) (object : Prim) : BVHTree
  | node (bbox : AABB) (left right : BVHTree) : BVHTree

/-- `BVHNode::new` on the `[start, end)` segment of the objects vector,
here passed as the segment itself (the in-place sort touches only the
segment, and each recursive call is determined by its segment's contents).
The recursion is fuel-indexed because — as one claim states — the source
recursion does not terminate on an empty segment: the `_` match arm splits
an empty range into two empty ranges at `mid = start + 0/2 = start` and
recurses on both forever.  `none` means the fuel ran out. -/
def bvhNew : ℕ → List Prim → Option BVHTree
  | 0, _ => none
  | fuel + 1, objects =>
    let bbox := objects.foldl (fun bb object => AABB.union bb object.bbox) AABB.EMPTY
    let axis := bbox.longest_axis
    match objects with
    | [object] => some (.leaf bbox object)
    | _ =>
      let sorted := sortBy (boxCompareLe axis) objects
      let mid := objects.length / 2
      match bvhNew fuel (sorted.take mid), bvhNew fuel (sorted.drop mid) with
      | some left, some right => some (.node bbox left right)
      | _, _ => none

/-- `impl Hittable for BVHNode::hit`: prune on the node's box, intersect
the left subtree, then the right subtree on the interval tightened to
`[ray_t.min, leftHit.t)`, right hit taking priority (`Option::or`). -/
def bvhHit : BVHTree → Ray → Interval → Option HitRec
  | .leaf bbox object, r, ray_t =>
      if bbox.hit r ray_t then object.hit r ray_t else none
  | .node bbox left right, r, ray_t =>
      if bbox.hit r ray_t then
        match bvhHit left r ray_t with
        | some rec =>
            (bvhHit right r (Interval.new ray_t.min (EF.fin rec.t))).or (some rec)
        | none => bvhHit right r ray_t
      else none

/-- The primitives stored at the leaves of a subtree, left to right. -/
def BVHTree.leaves : BVHTree → List Prim
  | .leaf _ object => [object]
  | .node _ left right => left.leaves ++ right.leaves

/-- The root bounding box. -/
def BVHTree.box : BVHTree → AABB
  | .leaf bbox _ => bbox
  | .node bbox _ _ => bbox

/-- Interval containment of bounds (for non-`nan` bounds this is `i ⊆ j`). -/
def ISub (i j : Interval) : Prop :=
  EF.le j.min i.min = true ∧ EF.le i.max j.max = true

/-- Box containment, axis-wise. -/
def BoxSub (a b : AABB) : Prop := ISub a.x b.x ∧ ISub a.y b.y ∧ ISub a.z b.z

/-- Every node's box contains the boxes of all primitives below it (the
tree invariant `BVHNode::new` establishes: each node stores the union of
its segment's boxes). -/
def Covers : BVHTree → Prop
  | .leaf bbox object => BoxSub object.bbox bbox
  | .node bbox left right =>
      (∀ p ∈ left.leaves ++ right.leaves, BoxSub p.bbox bbox) ∧
        Covers left ∧ Covers right

/-- The `Hittable` contract the renderer's primitives satisfy, which both
the linear scan and the BVH traversal rely on:
`surr`: a reported hit lies strictly inside the queried interval;
`cons`: a hit on an interval implies every box containing the primitive's
bounding box passes the slab test on that interval (bounding boxes are
conservative);
`keep`: shrinking the upper bound keeps a hit that is still strictly below
the new bound, unchanged;
`cut`: shrinking the upper bound to at most the reported `t` removes the
hit;
`mono`: shrinking the upper bound never creates a hit. -/
structure WellBehaved (p : Prim) : Prop where
  surr : ∀ r I rec, p.hit r I = some rec → I.surrounds (EF.fin rec.t) = true
  cons : ∀ r I rec bb, BoxSub p.bbox bb → p.hit r I = some rec →
    bb.hit r I = true
  keep : ∀ r m M M' rec, p.hit r ⟨m, M⟩ = some rec →
    EF.lt (EF.fin rec.t) M' = true → EF.le M' M = true →
    p.hit r ⟨m, M'⟩ = some rec
  cut : ∀ r m M M' rec, p.hit r ⟨m, M⟩ = some rec →
    EF.le M' (EF.fin rec.t) = true → EF.le M' M = true →
    p.hit r ⟨m, M'⟩ = none
  mono : ∀ r m M M', p.hit r ⟨m, M⟩ = none → EF.le M' M = true →
    p.hit r ⟨m, M'⟩ = none

/-- `res` is an optimal hit for the primitive multiset `ps` on interval
`I`: either nothing hits `I`, or `res` is a hit of some element whose `t`
is minimal among all hits, strictly inside `I`. -/
def IsBest (ps : List Prim) (r : Ray) (I : Interval) : Option HitRec → Prop
  | none => ∀ p ∈ ps, p.hit r I = none
  | some b =>
      (∃ p ∈ ps, p.hit r I = some b) ∧ I.surrounds (EF.fin b.t) = true ∧
        ∀ p ∈ ps, ∀ rec, p.hit r I = some rec → b.t ≤ rec.t

/-- The trait-object view of a static sphere built by `Sphere::new`: the
precomputed bounding box from the corner points `center ± rvec` (with the
unclamped radius, as in the constructor) and the `Sphere::hit` function,
its record projected to the observables of the BVH layer (`t` plus the
primitive's identity). -/
def spherePrim (center : Vec3) (radius : ℚ) (id : ℕ) : Prim :=
  ⟨AABB.fromPoints (center - ⟨radius, radius, radius⟩)
      (center + ⟨radius, radius, radius⟩),
   fun r rt => ((Sphere.new center radius).hit r rt).map fun rec => ⟨rec.t, id⟩⟩

/-- Two spheres placed symmetrically about the `-z` axis so that the ray
from the origin along `-z` meets both at exactly `t = 1`. -/
def tiePrims : List Prim :=
  [spherePrim ⟨0, 3, -5⟩ 5 0, spherePrim ⟨0, -3, -5⟩ 5 1]

/-- A trivially well-behaved primitive that never hits anything. -/
def nonePrim : Prim :=
  ⟨AABB.fromPoints ⟨0, 0, 0⟩ ⟨1, 1, 1⟩, fun _ _ => none⟩

/-- Invariant of the linear-scan fold in `HittableList::hit` after the
processed prefix: the carried `closest` equals the original upper bound
when nothing hit, or the current best `t`, which is optimal for the
prefix. -/
def ScanInv (r : Ray) (I : Interval) (processed : List Prim)
    (st : EF × Option HitRec) : Prop :=
  match st.2 with
  | none => st.1 = I.max ∧ ∀ p ∈ processed, p.hit r I = none
  | some b =>
      st.1 = EF.fin b.t ∧ (∃ p ∈ processed, p.hit r I = some b) ∧
        I.surrounds (EF.fin b.t) = true ∧
        ∀ p ∈ processed, ∀ rec, p.hit r I = some rec → b.t ≤ rec.t

/-! ### Order lemmas for the `f64` model -/

theorem efLe_fin {p q : ℚ} : EF.le (EF.fin p) (EF.fin q) = true ↔ p ≤ q := by
  simp [EF.le]

theorem efLt_fin {p q : ℚ} : EF.lt (EF.fin p) (EF.fin q) = true ↔ p < q := by
  simp [EF.lt]

theorem efLe_refl {a : EF} (h : a.IsNum) : EF.le a a = true := by
  cases a <;> simp_all [EF.IsNum, EF.le]

theorem efLe_num {a b : EF} (h : EF.le a b = true) : a.IsNum ∧ b.IsNum := by
  cases a <;> cases b <;> simp_all [EF.IsNum, EF.le]

theorem efLt_num {a b : EF} (h : EF.lt a b = true) : a.IsNum ∧ b.IsNum := by
  cases a <;> cases b <;> simp_all [EF.IsNum, EF.lt]

theorem efLe_total {a b : EF} (ha : a.IsNum) (hb : b.IsNum) :
    EF.le a b = true ∨ EF.le b a = true := by
  cases a <;> cases b <;> simp_all [EF.IsNum, EF.le] <;> exact le_total _ _

theorem efLe_trans {a b c : EF} (h1 : EF.le a b = true) (h2 : EF.le b c = true) :
    EF.le a c = true := by
  cases a <;> cases b <;> cases c <;> simp_all [EF.le] <;> linarith

theorem efLt_imp_le {a b : EF} (h : EF.lt a b = true) : EF.le a b = true := by
  cases a <;> cases b <;> simp_all [EF.lt, EF.le] <;> linarith

theorem efLt_le_trans {a b c : EF} (h1 : EF.lt a b = true) (h2 : EF.le b c = true) :
    EF.lt a c = true := by
  cases a <;> cases b <;> cases c <;> simp_all [EF.lt, EF.le] <;> linarith

theorem efLe_lt_trans {a b c : EF} (h1 : EF.le a b = true) (h2 : EF.lt b c = true) :
    EF.lt a c = true := by
  cases a <;> cases b <;> cases c <;> simp_all [EF.lt, EF.le] <;> linarith

theorem efLt_trans {a b c : EF} (h1 : EF.lt a b = true) (h2 : EF.lt b c = true) :
    EF.lt a c = true :=
  efLe_lt_trans (efLt_imp_le h1) h2

theorem efLt_irrefl {a : EF} : EF.lt a a = false := by
  cases a <;> simp [EF.lt]

theorem efNot_le {a b : EF} (ha : a.IsNum) (hb : b.IsNum)
    (h : EF.le a b = false) : EF.lt b a = true := by
  cases a <;> cases b <;> simp_all [EF.IsNum, EF.le, EF.lt] <;> linarith

theorem efNot_lt {a b : EF} (ha : a.IsNum) (hb : b.IsNum)
    (h : EF.lt a b = false) : EF.le b a = true := by
  cases a <;> cases b <;> simp_all [EF.IsNum, EF.le, EF.lt] <;> linarith

theorem efLt_asymm {a b : EF} (h : EF.lt a b = true) : EF.lt b a = false := by
  cases a <;> cases b <;> simp_all [EF.lt] <;> linarith

theorem efIsFin_iff {a : EF} : a.IsFin ↔ ∃ q, a = EF.fin q := by
  cases a <;> simp [EF.IsFin]

/-! ### Component lemmas for the vector instances and basic facts -/

theorem vec_add_def (a b : Vec3) : a + b = ⟨a.x + b.x, a.y + b.y, a.z + b.z⟩ := rfl

theorem vec_neg_def (a : Vec3) : -a = ⟨-a.x, -a.y, -a.z⟩ := rfl

theorem vec_sub_def (a b : Vec3) :
    a - b = ⟨a.x + -b.x, a.y + -b.y, a.z + -b.z⟩ := rfl

theorem vec_mul_def (a b : Vec3) : a * b = ⟨a.x * b.x, a.y * b.y, a.z * b.z⟩ := rfl

theorem natSqrt_zero_le (n : ℕ) : 0 ≤ (natSqrt n : ℤ) := Int.ofNat_nonneg _

theorem intSqrt_nonneg (i : ℤ) : 0 ≤ intSqrt i := Int.ofNat_nonneg _

theorem ratSqrt_nonneg (q : ℚ) : 0 ≤ ratSqrt q := by
  unfold ratSqrt
  apply div_nonneg
  · exact_mod_cast intSqrt_nonneg q.num
  · exact_mod_cast Nat.zero_le (natSqrt q.den)

theorem length_squared_pos {v : Vec3} (hv : v ≠ ⟨0, 0, 0⟩) :
    0 < v.length_squared := by
  rcases v with ⟨x, y, z⟩
  rcases lt_or_eq_of_le (mul_self_nonneg x) with hx | hx
  · have := mul_self_nonneg y
    have := mul_self_nonneg z
    unfold Vec3.length_squared
    dsimp only
    linarith
  · rcases lt_or_eq_of_le (mul_self_nonneg y) with hy | hy
    · have := mul_self_nonneg z
      unfold Vec3.length_squared
      dsimp only
      linarith
    · rcases lt_or_eq_of_le (mul_self_nonneg z) with hz | hz
      · unfold Vec3.length_squared
        dsimp only
        linarith
      · exfalso
        apply hv
        have hx0 : x = 0 := by
          have := mul_self_eq_zero.mp hx.symm
          exact this
        have hy0 : y = 0 := mul_self_eq_zero.mp hy.symm
        have hz0 : z = 0 := mul_self_eq_zero.mp hz.symm
        simp [hx0, hy0, hz0]


/-! ### Claim C5: interval union -/

/-- Claim C5: the interval union contains every real contained in either
operand (stated for intervals with non-`nan` bounds, i.e. the "real
number" bounds of the data model, `±inf` included), and the union of
`EMPTY` with any interval is that interval exactly. -/
theorem c5_interval_union (A B : Interval) (x : ℚ)
    (hA : A.IsNum) (hB : B.IsNum) :
    ((A.contains (EF.fin x) = true ∨ B.contains (EF.fin x) = true) →
      (Interval.union A B).contains (EF.fin x) = true) ∧
    Interval.union Interval.EMPTY A = A := by
  constructor
  · intro hc
    have hc' : (EF.le A.min (EF.fin x) = true ∧ EF.le (EF.fin x) A.max = true) ∨
        (EF.le B.min (EF.fin x) = true ∧ EF.le (EF.fin x) B.max = true) := by
      rcases hc with h | h
      · exact Or.inl (by simpa [Interval.contains] using h)
      · exact Or.inr (by simpa [Interval.contains] using h)
    have hmin : EF.le (Interval.union A B).min (EF.fin x) = true := by
      simp only [Interval.union]
      rcases hc' with ⟨h1, _⟩ | ⟨h1, _⟩
      · split
        · exact h1
        · rename_i hle
          rcases efLe_total hA.1 hB.1 with ht | ht
          · exact absurd ht (by simp_all)
          · exact efLe_trans ht h1
      · split
        · rename_i hle
          exact efLe_trans hle h1
        · exact h1
    have hmax : EF.le (EF.fin x) (Interval.union A B).max = true := by
      simp only [Interval.union]
      rcases hc' with ⟨_, h2⟩ | ⟨_, h2⟩
      · split
        · exact h2
        · rename_i hle
          rcases efLe_total hA.2 hB.2 with ht | ht
          · exact efLe_trans h2 ht
          · exact absurd ht (by simp_all)
      · split
        · rename_i hle
          exact efLe_trans h2 hle
        · exact h2
    simp [Interval.contains, hmin, hmax]
  · rcases A with ⟨mn, mx⟩
    cases mn <;> cases mx <;> simp [Interval.union, Interval.EMPTY, EF.le]

/-- Witness for C5 at concrete intervals. -/
theorem c5_interval_union_witness :
    ((Interval.contains ⟨EF.fin 0, EF.fin 1⟩ (EF.fin 2) = true ∨
        Interval.contains ⟨EF.fin 2, EF.fin 3⟩ (EF.fin 2) = true) →
      (Interval.union ⟨EF.fin 0, EF.fin 1⟩ ⟨EF.fin 2, EF.fin 3⟩).contains
        (EF.fin 2) = true) ∧
    Interval.union Interval.EMPTY ⟨EF.fin 0, EF.fin 1⟩ = ⟨EF.fin 0, EF.fin 1⟩ :=
  c5_interval_union ⟨EF.fin 0, EF.fin 1⟩ ⟨EF.fin 2, EF.fin 3⟩ 2
    (by constructor <;> simp [EF.IsNum]) (by constructor <;> simp [EF.IsNum])

/-! ### Claim C6: AABB minimum-thickness padding -/

/-- Padding one finite, ordered axis interval yields size at least `δ`. -/
theorem pad_axis_ge {m M : ℚ} (h : m ≤ M) :
    EF.le (EF.fin (1 / 10000))
      (Interval.size
        (if EF.lt (Interval.size ⟨EF.fin m, EF.fin M⟩) (EF.fin (1 / 10000)) then
          Interval.expand ⟨EF.fin m, EF.fin M⟩ (1 / 10000)
        else ⟨EF.fin m, EF.fin M⟩)) = true := by
  by_cases hlt : M - m < 1 / 10000
  · rw [if_pos]
    · simp only [Interval.expand, Interval.size, Interval.new, EF.sub, EF.neg,
        EF.add, efLe_fin]
      linarith
    · simp only [Interval.size, EF.sub, EF.neg, EF.add, efLt_fin]
      linarith
  · rw [if_neg]
    · simp only [Interval.size, EF.sub, EF.neg, EF.add, efLe_fin]
      linarith
    · simp only [Interval.size, EF.sub, EF.neg, EF.add, efLt_fin]
      linarith

/-- Counterexample to claim C6 as stated: the union construction path
(`From<(AABB, AABB)>`) does not pad.  Folding it over degenerate operands —
here the `aabb::EMPTY` constant that `BVHNode::new` and
`HittableList::default` use as fold seed — produces a box whose every axis
size is `-inf`, far below `0.0001`. -/
theorem c6_counterexample :
    EF.le (EF.fin (1 / 10000)) ((AABB.union AABB.EMPTY AABB.EMPTY).x.size) = false ∧
    EF.le (EF.fin (1 / 10000)) ((AABB.union AABB.EMPTY AABB.EMPTY).y.size) = false ∧
    EF.le (EF.fin (1 / 10000)) ((AABB.union AABB.EMPTY AABB.EMPTY).z.size) = false := by
  decide

/-- Claim C6 amended: the padding invariant (`size ≥ 0.0001` on every axis)
holds for the construction paths that call `pad_to_minimums` — `AABB::new`
on finite, ordered input intervals (degenerate zero-size included) and
corner-point construction for arbitrary corner points — and the union path
`From<(AABB, AABB)>`, which does not pad, preserves the invariant when both
operands are finite boxes already satisfying it, but does not establish it
for degenerate operands (see the counterexample). -/
theorem c6_aabb_padding (xm xM ym yM zm zM : ℚ)
    (hx : xm ≤ xM) (hy : ym ≤ yM) (hz : zm ≤ zM) (a b : Vec3) (b0 b1 : AABB)
    (hb0 : b0.IsFin) (hb1 : b1.IsFin)
    (h0 : ∀ n, n < 3 → EF.le (EF.fin (1 / 10000)) ((b0.axis_interval n).size) = true)
    (h1 : ∀ n, n < 3 → EF.le (EF.fin (1 / 10000)) ((b1.axis_interval n).size) = true) :
    (∀ n, n < 3 →
      EF.le (EF.fin (1 / 10000))
        (((AABB.new ⟨EF.fin xm, EF.fin xM⟩ ⟨EF.fin ym, EF.fin yM⟩
            ⟨EF.fin zm, EF.fin zM⟩).axis_interval n).size) = true) ∧
    (∀ n, n < 3 →
      EF.le (EF.fin (1 / 10000)) (((AABB.fromPoints a b).axis_interval n).size) = true) ∧
    (∀ n, n < 3 →
      EF.le (EF.fin (1 / 10000)) (((AABB.union b0 b1).axis_interval n).size) = true) := by
  refine ⟨?_, ?_, ?_⟩
  · intro n hn
    interval_cases n <;>
      simpa [AABB.new, AABB.pad_to_minimums, AABB.axis_interval] using
        pad_axis_ge (by linarith)
  · intro n hn
    have hgen : ∀ p q : ℚ,
        EF.le (EF.fin (1 / 10000))
          (Interval.size
            (if EF.lt (Interval.size (if p ≤ q then ⟨EF.fin p, EF.fin q⟩
                  else ⟨EF.fin q, EF.fin p⟩)) (EF.fin (1 / 10000)) then
              Interval.expand (if p ≤ q then ⟨EF.fin p, EF.fin q⟩
                  else ⟨EF.fin q, EF.fin p⟩) (1 / 10000)
            else (if p ≤ q then ⟨EF.fin p, EF.fin q⟩
                  else ⟨EF.fin q, EF.fin p⟩))) = true := by
      intro p q
      by_cases hpq : p ≤ q
      · simpa [hpq] using pad_axis_ge hpq
      · have : q ≤ p := le_of_not_le hpq
        simpa [hpq] using pad_axis_ge this
    interval_cases n <;>
      simpa [AABB.fromPoints, AABB.pad_to_minimums, AABB.axis_interval] using
        hgen _ _
  · have hax : ∀ mn0 mx0 mn1 mx1 : ℚ,
        1 / 10000 ≤ mx0 + -mn0 → 1 / 10000 ≤ mx1 + -mn1 →
        EF.le (EF.fin (1 / 10000))
          (Interval.union ⟨EF.fin mn0, EF.fin mx0⟩ ⟨EF.fin mn1, EF.fin mx1⟩).size =
          true := by
      intro mn0 mx0 mn1 mx1 hs0 hs1
      simp only [Interval.union, EF.le]
      by_cases hmn : mn0 ≤ mn1 <;> by_cases hmx : mx1 ≤ mx0 <;>
        simp [hmn, hmx, Interval.size, EF.sub, EF.neg, EF.add, efLe_fin] <;>
        linarith
    rcases b0 with ⟨⟨xm0, xM0⟩, ⟨ym0, yM0⟩, ⟨zm0, zM0⟩⟩
    rcases b1 with ⟨⟨xm1, xM1⟩, ⟨ym1, yM1⟩, ⟨zm1, zM1⟩⟩
    rcases hb0 with ⟨⟨g1, g2⟩, ⟨g3, g4⟩, ⟨g5, g6⟩⟩
    rcases hb1 with ⟨⟨k1, k2⟩, ⟨k3, k4⟩, ⟨k5, k6⟩⟩
    obtain ⟨xm0q, rfl⟩ := efIsFin_iff.mp g1
    obtain ⟨xM0q, rfl⟩ := efIsFin_iff.mp g2
    obtain ⟨ym0q, rfl⟩ := efIsFin_iff.mp g3
    obtain ⟨yM0q, rfl⟩ := efIsFin_iff.mp g4
    obtain ⟨zm0q, rfl⟩ := efIsFin_iff.mp g5
    obtain ⟨zM0q, rfl⟩ := efIsFin_iff.mp g6
    obtain ⟨xm1q, rfl⟩ := efIsFin_iff.mp k1
    obtain ⟨xM1q, rfl⟩ := efIsFin_iff.mp k2
    obtain ⟨ym1q, rfl⟩ := efIsFin_iff.mp k3
    obtain ⟨yM1q, rfl⟩ := efIsFin_iff.mp k4
    obtain ⟨zm1q, rfl⟩ := efIsFin_iff.mp k5
    obtain ⟨zM1q, rfl⟩ := efIsFin_iff.mp k6
    have e0 : (1 : ℚ) / 10000 ≤ xM0q + -xm0q := efLe_fin.mp (h0 0 (by omega))
    have e1 : (1 : ℚ) / 10000 ≤ yM0q + -ym0q := efLe_fin.mp (h0 1 (by omega))
    have e2 : (1 : ℚ) / 10000 ≤ zM0q + -zm0q := efLe_fin.mp (h0 2 (by omega))
    have f0 : (1 : ℚ) / 10000 ≤ xM1q + -xm1q := efLe_fin.mp (h1 0 (by omega))
    have f1 : (1 : ℚ) / 10000 ≤ yM1q + -ym1q := efLe_fin.mp (h1 1 (by omega))
    have f2 : (1 : ℚ) / 10000 ≤ zM1q + -zm1q := efLe_fin.mp (h1 2 (by omega))
    intro n hn
    interval_cases n <;> simp only [AABB.union, AABB.axis_interval] <;>
      [exact hax _ _ _ _ e0 f0; exact hax _ _ _ _ e1 f1; exact hax _ _ _ _ e2 f2]

/-- Witness for the amended C6 at concrete boxes. -/
theorem c6_aabb_padding_witness :
    (∀ n, n < 3 →
      EF.le (EF.fin (1 / 10000))
        (((AABB.new ⟨EF.fin 0, EF.fin 0⟩ ⟨EF.fin 0, EF.fin 1⟩
            ⟨EF.fin 0, EF.fin 1⟩).axis_interval n).size) = true) ∧
    (∀ n, n < 3 →
      EF.le (EF.fin (1 / 10000))
        (((AABB.fromPoints ⟨0, 0, 0⟩ ⟨1, 1, 1⟩).axis_interval n).size) = true) ∧
    (∀ n, n < 3 →
      EF.le (EF.fin (1 / 10000))
        (((AABB.union (AABB.fromPoints ⟨0, 0, 0⟩ ⟨1, 1, 1⟩)
            (AABB.fromPoints ⟨0, 0, 0⟩ ⟨1, 1, 1⟩)).axis_interval n).size) = true) := by
  refine c6_aabb_padding 0 0 0 1 0 1 (by norm_num) (by norm_num) (by norm_num)
    ⟨0, 0, 0⟩ ⟨1, 1, 1⟩ _ _ ?_ ?_ ?_ ?_
  · norm_num [AABB.fromPoints, AABB.pad_to_minimums, Interval.size, Interval.expand,
      Interval.new, EF.sub, EF.neg, EF.add, EF.lt, AABB.IsFin, Interval.IsFin, EF.IsFin]
  · norm_num [AABB.fromPoints, AABB.pad_to_minimums, Interval.size, Interval.expand,
      Interval.new, EF.sub, EF.neg, EF.add, EF.lt, AABB.IsFin, Interval.IsFin, EF.IsFin]
  · intro n hn
    interval_cases n <;>
      norm_num [AABB.fromPoints, AABB.pad_to_minimums, AABB.axis_interval,
        Interval.size, Interval.expand, Interval.new, EF.sub, EF.neg, EF.add,
        EF.lt, EF.le]
  · intro n hn
    interval_cases n <;>
      norm_num [AABB.fromPoints, AABB.pad_to_minimums, AABB.axis_interval,
        Interval.size, Interval.expand, Interval.new, EF.sub, EF.neg, EF.add,
        EF.lt, EF.le]

/-! ### Claim C7: longest axis -/

/-- Counterexample to claim C7 as stated: with the `x` and `y` sizes tied
at the maximum, `longest_axis` returns `1`, not the smallest maximal index
`0`. -/
theorem c7_counterexample :
    (AABB.longest_axis ⟨⟨EF.fin 0, EF.fin 1⟩, ⟨EF.fin 0, EF.fin 1⟩,
        ⟨EF.fin 0, EF.fin (1 / 2)⟩⟩ = 1) ∧
    (⟨⟨EF.fin 0, EF.fin 1⟩, ⟨EF.fin 0, EF.fin 1⟩,
        ⟨EF.fin 0, EF.fin (1 / 2)⟩⟩ : AABB).x.size =
      (⟨⟨EF.fin 0, EF.fin 1⟩, ⟨EF.fin 0, EF.fin 1⟩,
        ⟨EF.fin 0, EF.fin (1 / 2)⟩⟩ : AABB).y.size ∧
    EF.lt (⟨⟨EF.fin 0, EF.fin 1⟩, ⟨EF.fin 0, EF.fin 1⟩,
        ⟨EF.fin 0, EF.fin (1 / 2)⟩⟩ : AABB).z.size
      (⟨⟨EF.fin 0, EF.fin 1⟩, ⟨EF.fin 0, EF.fin 1⟩,
        ⟨EF.fin 0, EF.fin (1 / 2)⟩⟩ : AABB).x.size = true := by
  norm_num [AABB.longest_axis, Interval.size, EF.sub, EF.neg, EF.add, EF.lt]

/-- Claim C7 amended: `longest_axis` returns the index of an axis of
maximal size, and ties resolve consistently in favor of the *later* axis —
the largest index attaining the maximum is returned (axis 0 is returned
only when strictly greater than axes 1 and 2, axis 1 only when strictly
greater than axis 2), stated for boxes with finite bounds. -/
theorem c7_longest_axis (b : AABB) (hb : b.IsFin) :
    (∀ j, j < 3 →
      EF.le ((b.axis_interval j).size) ((b.axis_interval b.longest_axis).size) = true) ∧
    (∀ j, b.longest_axis < j → j < 3 →
      EF.lt ((b.axis_interval j).size) ((b.axis_interval b.longest_axis).size) = true) := by
  rcases b with ⟨⟨xm, xM⟩, ⟨ym, yM⟩, ⟨zm, zM⟩⟩
  rcases hb with ⟨⟨h1, h2⟩, ⟨h3, h4⟩, ⟨h5, h6⟩⟩
  obtain ⟨xmq, rfl⟩ := efIsFin_iff.mp h1
  obtain ⟨xMq, rfl⟩ := efIsFin_iff.mp h2
  obtain ⟨ymq, rfl⟩ := efIsFin_iff.mp h3
  obtain ⟨yMq, rfl⟩ := efIsFin_iff.mp h4
  obtain ⟨zmq, rfl⟩ := efIsFin_iff.mp h5
  obtain ⟨zMq, rfl⟩ := efIsFin_iff.mp h6
  by_cases hxy : yMq + -ymq < xMq + -xmq <;>
    by_cases hxz : zMq + -zmq < xMq + -xmq <;>
    by_cases hyz : zMq + -zmq < yMq + -ymq <;>
  exact by
    simp only [AABB.longest_axis, Interval.size, EF.sub, EF.neg, EF.add, EF.lt,
      hxy, hxz, hyz, decide_True, decide_False, decide_eq_true_eq,
      Bool.and_true, Bool.and_false, Bool.true_and, Bool.false_and,
      if_true, if_false, Bool.and_self]
    try simp
    constructor
    · intro j hj
      interval_cases j <;>
        simp [AABB.axis_interval, Interval.size, EF.sub, EF.neg, EF.add,
          efLe_fin, efLt_fin] <;>
        linarith
    · intro j hlt hj
      interval_cases j <;>
        simp [AABB.axis_interval, Interval.size, EF.sub, EF.neg, EF.add,
          efLe_fin, efLt_fin] <;>
        linarith

/-! ### Claim C9: slab-test totality on zero direction components -/

/-- A slab with finite bounds, met by a ray whose direction component on
that axis is exactly zero, either leaves the running interval unchanged
(origin strictly inside the slab) or drives it empty, so the early-exit
comparison `max <= min` rejects — the `±inf`/`nan` values produced by
`1/0` flow through the unmodified comparisons. -/
theorem slab_zero {m M o : ℚ} {rmin rmax : EF}
    (hr1 : rmin.IsNum) (hr2 : rmax.IsNum) :
    AABB.slabStep ⟨EF.fin m, EF.fin M⟩ o 0 ⟨rmin, rmax⟩ = ⟨rmin, rmax⟩ ∨
    EF.le (AABB.slabStep ⟨EF.fin m, EF.fin M⟩ o 0 ⟨rmin, rmax⟩).max
      (AABB.slabStep ⟨EF.fin m, EF.fin M⟩ o 0 ⟨rmin, rmax⟩).min = true := by
  rcases lt_trichotomy (m + -o) 0 with h1 | h1 | h1 <;>
    rcases lt_trichotomy (M + -o) 0 with h2 | h2 | h2
  · right
    cases rmin <;> cases rmax <;>
      simp_all [AABB.slabStep, EF.sub, EF.neg, EF.add, EF.div, EF.mul,
        EF.lt, EF.le, EF.IsNum, lt_asymm h1, lt_asymm h2]
  · right
    cases rmin <;> cases rmax <;>
      simp_all [AABB.slabStep, EF.sub, EF.neg, EF.add, EF.div, EF.mul,
        EF.lt, EF.le, EF.IsNum, lt_asymm h1]
  · left
    cases rmin <;> cases rmax <;>
      simp_all [AABB.slabStep, EF.sub, EF.neg, EF.add, EF.div, EF.mul,
        EF.lt, EF.le, EF.IsNum, lt_asymm h1, lt_asymm h2]
  · left
    cases rmin <;> cases rmax <;>
      simp_all [AABB.slabStep, EF.sub, EF.neg, EF.add, EF.div, EF.mul,
        EF.lt, EF.le, EF.IsNum, lt_asymm h2]
  · left
    cases rmin <;> cases rmax <;>
      simp_all [AABB.slabStep, EF.sub, EF.neg, EF.add, EF.div, EF.mul,
        EF.lt, EF.le, EF.IsNum]
  · right
    cases rmin <;> cases rmax <;>
      simp_all [AABB.slabStep, EF.sub, EF.neg, EF.add, EF.div, EF.mul,
        EF.lt, EF.le, EF.IsNum, lt_asymm h2]
  · left
    cases rmin <;> cases rmax <;>
      simp_all [AABB.slabStep, EF.sub, EF.neg, EF.add, EF.div, EF.mul,
        EF.lt, EF.le, EF.IsNum, lt_asymm h1, lt_asymm h2]
  · left
    cases rmin <;> cases rmax <;>
      simp_all [AABB.slabStep, EF.sub, EF.neg, EF.add, EF.div, EF.mul,
        EF.lt, EF.le, EF.IsNum, lt_asymm h1]
  · right
    cases rmin <;> cases rmax <;>
      simp_all [AABB.slabStep, EF.sub, EF.neg, EF.add, EF.div, EF.mul,
        EF.lt, EF.le, EF.IsNum, lt_asymm h1, lt_asymm h2]

/-- Claim C9: `AABB::hit` is total — it returns a boolean for every ray,
including rays with direction components exactly `0.0`; the division
`1.0/direction` at a zero component is the correctly-signed infinity
(`+inf` for the `+0.0` that `0.0` denotes; signed zero is not
distinguished in this model), and the per-axis narrowing comparisons
handle the resulting `±inf`/`nan` with no special case: on a finite slab
with non-`nan` running bounds they either leave the running interval
unchanged or make it empty for the early-exit check. -/
theorem c9_aabb_hit_total :
    (∀ (b : AABB) (r : Ray) (rt : Interval),
      AABB.hit b r rt = true ∨ AABB.hit b r rt = false) ∧
    EF.div (EF.fin 1) (EF.fin 0) = EF.posInf ∧
    (∀ (ax : Interval) (o : ℚ) (rt : Interval), ax.IsFin → rt.IsNum →
      AABB.slabStep ax o 0 rt = rt ∨
        EF.le (AABB.slabStep ax o 0 rt).max (AABB.slabStep ax o 0 rt).min = true) := by
  refine ⟨fun b r rt => ?_, by norm_num [EF.div], ?_⟩
  · cases h : AABB.hit b r rt
    · exact Or.inr rfl
    · exact Or.inl rfl
  · intro ax o rt hax hrt
    rcases ax with ⟨axmin, axmax⟩
    obtain ⟨m, rfl⟩ := efIsFin_iff.mp hax.1
    obtain ⟨M, rfl⟩ := efIsFin_iff.mp hax.2
    rcases rt with ⟨rmin, rmax⟩
    exact slab_zero hrt.1 hrt.2

/-- Witness for C9 at a concrete box, ray with a zero direction component,
and interval. -/
theorem c9_aabb_hit_total_witness :
    (AABB.hit ⟨⟨EF.fin 0, EF.fin 1⟩, ⟨EF.fin 0, EF.fin 1⟩, ⟨EF.fin 0, EF.fin 1⟩⟩
        ⟨⟨1 / 2, 1 / 2, -1⟩, ⟨0, 0, 1⟩, 0⟩ ⟨EF.fin (1 / 1000), EF.posInf⟩ = true ∨
      AABB.hit ⟨⟨EF.fin 0, EF.fin 1⟩, ⟨EF.fin 0, EF.fin 1⟩, ⟨EF.fin 0, EF.fin 1⟩⟩
        ⟨⟨1 / 2, 1 / 2, -1⟩, ⟨0, 0, 1⟩, 0⟩ ⟨EF.fin (1 / 1000), EF.posInf⟩ = false) ∧
    (AABB.slabStep ⟨EF.fin 0, EF.fin 1⟩ (1 / 2) 0 ⟨EF.fin (1 / 1000), EF.posInf⟩ =
        ⟨EF.fin (1 / 1000), EF.posInf⟩ ∨
      EF.le (AABB.slabStep ⟨EF.fin 0, EF.fin 1⟩ (1 / 2) 0
          ⟨EF.fin (1 / 1000), EF.posInf⟩).max
        (AABB.slabStep ⟨EF.fin 0, EF.fin 1⟩ (1 / 2) 0
          ⟨EF.fin (1 / 1000), EF.posInf⟩).min = true) :=
  ⟨c9_aabb_hit_total.1 _ _ _,
   c9_aabb_hit_total.2.2 ⟨EF.fin 0, EF.fin 1⟩ (1 / 2) ⟨EF.fin (1 / 1000), EF.posInf⟩
     (by exact ⟨trivial, trivial⟩) (by exact ⟨trivial, trivial⟩)⟩

/-! ### Claim C4: sphere root selection -/

/-- Claim C4: `Sphere::hit` tests the nearer root `(h - sqrt(d))/a` first
(it is never farther than `(h + sqrt(d))/a` when the discriminant is
non-negative), accepts the farther root only when the nearer lies outside
the caller's open interval, and reports `none` when the discriminant is
negative or both roots lie outside.  Rays with direction exactly zero are
excluded: there `a = 0` and the `f64` code produces `NaN` roots (hence no
hit), which the rational model cannot mirror. -/
theorem c4_sphere_hit (s : Sphere) (r : Ray) (ray_t : Interval)
    (hd : r.dir ≠ ⟨0, 0, 0⟩) :
    (0 ≤ s.discriminant r → s.root1 r ≤ s.root2 r) ∧
    (s.discriminant r < 0 → s.hit r ray_t = none) ∧
    (0 ≤ s.discriminant r → ray_t.surrounds (EF.fin (s.root1 r)) = true →
      s.hit r ray_t = some (s.buildRec r (s.root1 r))) ∧
    (0 ≤ s.discriminant r → ray_t.surrounds (EF.fin (s.root1 r)) = false →
      ray_t.surrounds (EF.fin (s.root2 r)) = true →
      s.hit r ray_t = some (s.buildRec r (s.root2 r))) ∧
    (0 ≤ s.discriminant r → ray_t.surrounds (EF.fin (s.root1 r)) = false →
      ray_t.surrounds (EF.fin (s.root2 r)) = false → s.hit r ray_t = none) := by
  have ha : 0 < s.qa r := length_squared_pos hd
  refine ⟨?_, ?_, ?_, ?_, ?_⟩
  · intro hdisc
    unfold Sphere.root1 Sphere.root2
    have hs := ratSqrt_nonneg (s.discriminant r)
    apply div_le_div_of_nonneg_right ?_ ha.le
    linarith
  · intro hdisc
    simp [Sphere.hit, hdisc]
  · intro hdisc h1
    simp [Sphere.hit, not_lt.mpr hdisc, h1]
  · intro hdisc h1 h2
    simp [Sphere.hit, not_lt.mpr hdisc, h1, h2]
  · intro hdisc h1 h2
    simp [Sphere.hit, not_lt.mpr hdisc, h1, h2]

/-- Witness for C4: a unit sphere at `(0,0,-5)` hit by the ray from the
origin along `-z` at the nearer root `t = 4`. -/
theorem c4_sphere_hit_witness :
    (Sphere.hit ⟨⟨0, 0, -5⟩, 1, false, ⟨0, 0, 0⟩⟩ ⟨⟨0, 0, 0⟩, ⟨0, 0, -1⟩, 0⟩
        ⟨EF.fin (1 / 1000), EF.posInf⟩ =
      some (Sphere.buildRec ⟨⟨0, 0, -5⟩, 1, false, ⟨0, 0, 0⟩⟩
        ⟨⟨0, 0, 0⟩, ⟨0, 0, -1⟩, 0⟩
        (Sphere.root1 ⟨⟨0, 0, -5⟩, 1, false, ⟨0, 0, 0⟩⟩
          ⟨⟨0, 0, 0⟩, ⟨0, 0, -1⟩, 0⟩))) ∧
    Sphere.root1 ⟨⟨0, 0, -5⟩, 1, false, ⟨0, 0, 0⟩⟩ ⟨⟨0, 0, 0⟩, ⟨0, 0, -1⟩, 0⟩ = 4 := by
  have hdisc : Sphere.discriminant ⟨⟨0, 0, -5⟩, 1, false, ⟨0, 0, 0⟩⟩
      ⟨⟨0, 0, 0⟩, ⟨0, 0, -1⟩, 0⟩ = 1 := by
    norm_num [Sphere.discriminant, Sphere.qh, Sphere.qa, Sphere.qc,
      Sphere.hitCenter, Vec3.dot, Vec3.length_squared, vec_sub_def]
  have hsqrt : ratSqrt 1 = 1 := by
    have h1 : RR.natSqrt 1 = 1 := by decide
    have h2 : RR.intSqrt 1 = 1 := by decide
    norm_num [ratSqrt, h1, h2]
  have hroot : Sphere.root1 ⟨⟨0, 0, -5⟩, 1, false, ⟨0, 0, 0⟩⟩
      ⟨⟨0, 0, 0⟩, ⟨0, 0, -1⟩, 0⟩ = 4 := by
    norm_num [Sphere.root1, hdisc, hsqrt, Sphere.qh, Sphere.qa,
      Sphere.hitCenter, Vec3.dot, Vec3.length_squared, vec_sub_def]
  refine ⟨?_, hroot⟩
  apply (c4_sphere_hit _ _ _ (by simp)).2.2.1
  · rw [hdisc]
    norm_num
  · rw [hroot]
    norm_num [Interval.surrounds, EF.lt]

/-! ### Claim C2: the Material variant set -/

/-- Claim C2 (code side): the `Material` enum declared in `material.rs` is
closed over exactly four variants — `Lambertian`, `Metal`, `Dielectric`,
`DiffuseLight`.  There is no `Isotropic` variant, although
`ConstantMedium::new` (primitive.rs) constructs `Material::Isotropic`; and
the `scatter` catch-all arm returns `None` for every variant other than
the three with explicit arms. -/
theorem c2_material_variants :
    (∀ m : Material,
      (∃ tex, m = Material.lambertian tex) ∨
      (∃ albedo fuzz, m = Material.metal albedo fuzz) ∨
      (∃ ri, m = Material.dielectric ri) ∨
      (∃ tex, m = Material.diffuseLight tex)) ∧
    (∀ (tex : TextureFn) (u : Vec3) (x : ℚ) (r : Ray) (rec : HitData),
      Material.scatter (Material.diffuseLight tex) u x r rec = none) := by
  constructor
  · intro m
    cases m with
    | lambertian tex => exact Or.inl ⟨tex, rfl⟩
    | metal albedo fuzz => exact Or.inr (Or.inl ⟨albedo, fuzz, rfl⟩)
    | dielectric ri => exact Or.inr (Or.inr (Or.inl ⟨ri, rfl⟩))
    | diffuseLight tex => exact Or.inr (Or.inr (Or.inr ⟨tex, rfl⟩))
  · intro tex u x r rec
    rfl

/-! ### Claim C8: zero-fuzz metal scattering -/

/-- Counterexample to claim C8 as stated: the code normalizes the
reflected direction (`reflected.unit_vector()`), so for the incoming
direction `(0,0,-2)` against normal `(0,0,1)` the scattered direction is
the unit vector `(0,0,1)`, not the raw mirror reflection
`d - 2*dot(d,n)*n = (0,0,2)` that the claim asserts. -/
theorem c8_counterexample :
    (Material.scatter (Material.metal ⟨1, 1, 1⟩ 0) ⟨1, 0, 0⟩ 0
        ⟨⟨0, 0, 3⟩, ⟨0, 0, -2⟩, 0⟩ ⟨⟨0, 0, 1⟩, ⟨0, 0, 1⟩, 1, 0, 0, true⟩).map
        (fun out => out.1.dir) = some ⟨0, 0, 1⟩ ∧
    Vec3.reflect ⟨0, 0, -2⟩ ⟨0, 0, 1⟩ = ⟨0, 0, 2⟩ ∧
    (⟨0, 0, 1⟩ : Vec3) ≠ ⟨0, 0, 2⟩ := by
  have hns : RR.natSqrt 1 = 1 := by decide
  have his : RR.intSqrt 4 = 2 := by decide
  have hsqrt : ratSqrt 4 = 2 := by norm_num [ratSqrt, hns, his]
  have hrefl : Vec3.reflect ⟨0, 0, -2⟩ ⟨0, 0, 1⟩ = ⟨0, 0, 2⟩ := by
    norm_num [Vec3.reflect, Vec3.smul, Vec3.dot, vec_sub_def]
  refine ⟨?_, hrefl, by simp⟩
  norm_num [Material.scatter, hrefl, Vec3.unit_vector, Vec3.length,
    Vec3.length_squared, hsqrt, Vec3.divs, Vec3.smul, Vec3.dot, vec_add_def]

/-- Claim C8 amended: for a `Metal` with `fuzz = 0` the scatter result is
independent of the random unit-vector draw, and whenever it scatters, the
scattered direction is the *unit vector* of the mirror reflection
`d - 2*dot(d,n)*n` (the code normalizes the reflection before adding the
fuzz perturbation), with attenuation the stored albedo. -/
theorem c8_metal_fuzz_zero (albedo : Vec3) (r_in : Ray) (rec : HitData)
    (u1 u2 : Vec3) (x1 x2 : ℚ) :
    Material.scatter (Material.metal albedo 0) u1 x1 r_in rec =
      Material.scatter (Material.metal albedo 0) u2 x2 r_in rec ∧
    (∀ sray att,
      Material.scatter (Material.metal albedo 0) u1 x1 r_in rec = some (sray, att) →
      sray.dir = (r_in.dir.reflect rec.normal).unit_vector ∧ att = albedo) := by
  have hmin : min (0 : ℚ) 1 = 0 := by norm_num
  have hzero : ∀ u : Vec3,
      (r_in.dir.reflect rec.normal).unit_vector + Vec3.smul (min (0 : ℚ) 1) u =
        (r_in.dir.reflect rec.normal).unit_vector := by
    intro u
    simp [hmin, Vec3.smul, vec_add_def]
  constructor
  · simp only [Material.scatter, hzero]
  · intro sray att hs
    simp only [Material.scatter, hzero] at hs
    split at hs
    · rcases Option.some.injEq _ _ ▸ hs with h
      cases h
      exact ⟨rfl, rfl⟩
    · exact absurd hs (by simp)

/-- Witness for the amended C8 at the concrete reflection scenario. -/
theorem c8_metal_fuzz_zero_witness :
    Material.scatter (Material.metal ⟨1, 1, 1⟩ 0) ⟨1, 0, 0⟩ 0
        ⟨⟨0, 0, 3⟩, ⟨0, 0, -2⟩, 0⟩ ⟨⟨0, 0, 1⟩, ⟨0, 0, 1⟩, 1, 0, 0, true⟩ =
      Material.scatter (Material.metal ⟨1, 1, 1⟩ 0) ⟨0, 1, 0⟩ (1 / 2)
        ⟨⟨0, 0, 3⟩, ⟨0, 0, -2⟩, 0⟩ ⟨⟨0, 0, 1⟩, ⟨0, 0, 1⟩, 1, 0, 0, true⟩ ∧
    (⟨⟨0, 0, 1⟩, ⟨0, 0, 1⟩, (0 : ℚ)⟩ : Ray).dir =
      (Vec3.reflect ⟨0, 0, -2⟩ ⟨0, 0, 1⟩).unit_vector := by
  have hns : RR.natSqrt 1 = 1 := by decide
  have his : RR.intSqrt 4 = 2 := by decide
  have hsqrt : ratSqrt 4 = 2 := by norm_num [ratSqrt, hns, his]
  have hrefl : Vec3.reflect ⟨0, 0, -2⟩ ⟨0, 0, 1⟩ = ⟨0, 0, 2⟩ := by
    norm_num [Vec3.reflect, Vec3.smul, Vec3.dot, vec_sub_def]
  have hdir : (⟨⟨0, 0, 1⟩, ⟨0, 0, 1⟩, (0 : ℚ)⟩ : Ray).dir =
      (Vec3.reflect ⟨0, 0, -2⟩ ⟨0, 0, 1⟩).unit_vector := by
    norm_num [hrefl, Vec3.unit_vector, Vec3.length, Vec3.length_squared,
      hsqrt, Vec3.divs, Vec3.smul]
  exact ⟨(c8_metal_fuzz_zero ⟨1, 1, 1⟩ ⟨⟨0, 0, 3⟩, ⟨0, 0, -2⟩, 0⟩
    ⟨⟨0, 0, 1⟩, ⟨0, 0, 1⟩, 1, 0, 0, true⟩ ⟨1, 0, 0⟩ ⟨0, 1, 0⟩ 0 (1 / 2)).1, hdir⟩

/-! ### Claim C3: the integrator -/

/-- Claim C3: `Camera::ray_color` returns black at depth `<= 0`; otherwise
it queries the scene on `t ∈ [0.001, +inf)`; on a miss it returns the
background; on a hit it returns emission plus, when the material scatters,
attenuation times the radiance of the scattered ray at `depth - 1`, and
emission alone otherwise. -/
theorem c3_ray_color (world : Ray → Interval → Option HitRecord)
    (background : Vec3) (draws : ℤ → Vec3 × ℚ) (r : Ray) (depth : ℤ) :
    (depth ≤ 0 → Camera.ray_color world background draws r depth = ⟨0, 0, 0⟩) ∧
    (0 < depth →
      world r (Interval.new (EF.fin (1 / 1000)) EF.posInf) = none →
      Camera.ray_color world background draws r depth = background) ∧
    (∀ rec scattered attenuation, 0 < depth →
      world r (Interval.new (EF.fin (1 / 1000)) EF.posInf) = some rec →
      rec.mat.scatter (draws depth).1 (draws depth).2 r rec.data =
        some (scattered, attenuation) →
      Camera.ray_color world background draws r depth =
        rec.mat.emitted rec.data.u rec.data.v rec.data.p +
          attenuation * Camera.ray_color world background draws scattered (depth - 1)) ∧
    (∀ rec, 0 < depth →
      world r (Interval.new (EF.fin (1 / 1000)) EF.posInf) = some rec →
      rec.mat.scatter (draws depth).1 (draws depth).2 r rec.data = none →
      Camera.ray_color world background draws r depth =
        rec.mat.emitted rec.data.u rec.data.v rec.data.p) := by
  refine ⟨?_, ?_, ?_, ?_⟩
  · intro h
    rw [Camera.ray_color]
    simp only [dif_pos h]
  · intro h hw
    rw [Camera.ray_color]
    simp only [dif_neg (not_le.mpr h), hw]
  · intro rec scattered attenuation h hw hs
    rw [Camera.ray_color]
    simp only [dif_neg (not_le.mpr h), hw, hs]
  · intro rec h hw hs
    rw [Camera.ray_color]
    simp only [dif_neg (not_le.mpr h), hw, hs]

/-- Witness for C3 on the empty scene: depth `0` gives black, depth `1`
gives the background. -/
theorem c3_ray_color_witness :
    Camera.ray_color (fun _ _ => none) ⟨1, 2, 3⟩ (fun _ => (⟨0, 0, 0⟩, 0))
      ⟨⟨0, 0, 0⟩, ⟨0, 0, -1⟩, 0⟩ 0 = ⟨0, 0, 0⟩ ∧
    Camera.ray_color (fun _ _ => none) ⟨1, 2, 3⟩ (fun _ => (⟨0, 0, 0⟩, 0))
      ⟨⟨0, 0, 0⟩, ⟨0, 0, -1⟩, 0⟩ 1 = ⟨1, 2, 3⟩ :=
  ⟨(c3_ray_color (fun _ _ => none) ⟨1, 2, 3⟩ (fun _ => (⟨0, 0, 0⟩, 0))
      ⟨⟨0, 0, 0⟩, ⟨0, 0, -1⟩, 0⟩ 0).1 (by norm_num),
   (c3_ray_color (fun _ _ => none) ⟨1, 2, 3⟩ (fun _ => (⟨0, 0, 0⟩, 0))
      ⟨⟨0, 0, 0⟩, ⟨0, 0, -1⟩, 0⟩ 1).2.1 (by norm_num) rfl⟩

/-! ### Sorting facts -/

theorem insertSorted_perm (le : Prim → Prim → Bool) (a : Prim) (l : List Prim) :
    (insertSorted le a l).Perm (a :: l) := by
  induction l with
  | nil => simp [insertSorted]
  | cons b t ih =>
    rw [insertSorted]
    split
    · exact ((ih.cons b).trans (List.Perm.swap a b t))
    · exact List.Perm.refl _

theorem sortBy_perm (le : Prim → Prim → Bool) (l : List Prim) :
    (sortBy le l).Perm l := by
  induction l with
  | nil => simp [sortBy]
  | cons a t ih =>
    rw [sortBy]
    exact (insertSorted_perm le a (sortBy le t)).trans (ih.cons a)

theorem sortBy_length (le : Prim → Prim → Bool) (l : List Prim) :
    (sortBy le l).length = l.length :=
  (sortBy_perm le l).length_eq

/-! ### Claim C10: BVH construction termination -/

/-- On the empty segment the build exhausts any amount of fuel: the `_`
match arm splits the empty range into two empty ranges and recurses. -/
theorem bvhNew_nil (fuel : ℕ) : bvhNew fuel [] = none := by
  induction fuel with
  | zero => rfl
  | succ n ih => simp [bvhNew, sortBy, ih]

/-- On a non-empty segment, fuel equal to the segment length suffices. -/
theorem bvhNew_some_of_le :
    ∀ (fuel : ℕ) (ps : List Prim), ps ≠ [] → ps.length ≤ fuel →
      ∃ t, bvhNew fuel ps = some t := by
  intro fuel
  induction fuel with
    | zero =>
      intro ps hne hlen
      exact absurd (List.length_eq_zero.mp (Nat.le_zero.mp hlen)) hne
    | succ n ih =>
      intro ps hne hlen
      cases ps with
      | nil => exact absurd rfl hne
      | cons p1 t =>
      cases t with
      | nil => exact ⟨_, rfl⟩
      | cons p2 rest =>
        rw [bvhNew]
        have hlen2 : (p1 :: p2 :: rest).length = rest.length + 2 := by simp
        set le := boxCompareLe
          (AABB.longest_axis ((p1 :: p2 :: rest).foldl
            (fun bb object => AABB.union bb object.bbox) AABB.EMPTY)) with hle
        have hslen : (sortBy le (p1 :: p2 :: rest)).length = rest.length + 2 := by
          rw [sortBy_length, hlen2]
        have hmid : (p1 :: p2 :: rest).length / 2 ≤ rest.length + 1 := by
          rw [hlen2]; omega
        have hmid1 : 1 ≤ (p1 :: p2 :: rest).length / 2 := by
          rw [hlen2]; omega
        obtain ⟨tl, htl⟩ := ih (List.take ((p1 :: p2 :: rest).length / 2)
            (sortBy le (p1 :: p2 :: rest)))
          (by
            have : (List.take ((p1 :: p2 :: rest).length / 2)
                (sortBy le (p1 :: p2 :: rest))).length =
                (p1 :: p2 :: rest).length / 2 := by
              rw [List.length_take, hslen, hlen2]
              omega
            intro hcon
            rw [hcon] at this
            simp at this
            omega)
          (by
            rw [List.length_take, hslen, hlen2]
            have : rest.length + 2 ≤ n + 1 := by
              rw [hlen2] at hlen
              omega
            omega)
        obtain ⟨tr, htr⟩ := ih (List.drop ((p1 :: p2 :: rest).length / 2)
            (sortBy le (p1 :: p2 :: rest)))
          (by
            have hdl : (List.drop ((p1 :: p2 :: rest).length / 2)
                (sortBy le (p1 :: p2 :: rest))).length =
                rest.length + 2 - (p1 :: p2 :: rest).length / 2 := by
              rw [List.length_drop, hslen]
            intro hcon
            rw [hcon] at hdl
            simp at hdl
            omega)
          (by
            rw [List.length_drop, hslen, hlen2]
            rw [hlen2] at hlen
            omega)
        rw [htl, htr]
        exact ⟨_, rfl⟩
        intro object hobj
        simp at hobj

/-- Claim C10: `BVHNode::new` terminates exactly on non-empty ranges.  In
the fueled model: on the empty segment every amount of fuel is exhausted
(the `_` arm splits the empty range at `mid = start` and recurses on two
identical empty ranges forever), so `From<HittableList>` on an empty
`HittableList` — which calls `new` on the empty `[0, 0)` range — never
terminates; on a non-empty segment fuel equal to the segment length — one
unit per recursion depth, each recursive call strictly smaller, a
one-element range becoming a leaf — already suffices. -/
theorem c10_bvh_new_termination :
    (∀ fuel, bvhNew fuel [] = none) ∧
    (∀ (fuel : ℕ) (ps : List Prim), ps ≠ [] → ps.length ≤ fuel →
      ∃ t, bvhNew fuel ps = some t) :=
  ⟨bvhNew_nil, bvhNew_some_of_le⟩

/-- Witness for C10 on concrete inputs: no fuel builds from the empty
list; one unit of fuel builds a leaf from a singleton. -/
theorem c10_bvh_new_termination_witness :
    bvhNew 5 [] = none ∧
    ∃ t, bvhNew 1 [⟨AABB.EMPTY, fun _ _ => none⟩] = some t :=
  ⟨c10_bvh_new_termination.1 5,
   c10_bvh_new_termination.2 1 [⟨AABB.EMPTY, fun _ _ => none⟩] (by simp) (by simp)⟩

/-- Witness for the amended C7 at a concrete box and axis. -/
theorem c7_longest_axis_witness :
    EF.le (((⟨⟨EF.fin 0, EF.fin 2⟩, ⟨EF.fin 0, EF.fin 1⟩,
        ⟨EF.fin 0, EF.fin 1⟩⟩ : AABB).axis_interval 1).size)
      (((⟨⟨EF.fin 0, EF.fin 2⟩, ⟨EF.fin 0, EF.fin 1⟩,
        ⟨EF.fin 0, EF.fin 1⟩⟩ : AABB).axis_interval
          (AABB.longest_axis ⟨⟨EF.fin 0, EF.fin 2⟩, ⟨EF.fin 0, EF.fin 1⟩,
            ⟨EF.fin 0, EF.fin 1⟩⟩)).size) = true := by
  exact (c7_longest_axis ⟨⟨EF.fin 0, EF.fin 2⟩, ⟨EF.fin 0, EF.fin 1⟩,
    ⟨EF.fin 0, EF.fin 1⟩⟩ (by decide)).1 1 (by norm_num)

/-! ### Claim C1: interval and box containment lemmas -/

theorem iunion_isnum {i j : Interval} (hi : i.IsNum) (hj : j.IsNum) :
    (Interval.union i j).IsNum := by
  rcases hi with ⟨hi1, hi2⟩
  rcases hj with ⟨hj1, hj2⟩
  constructor
  · simp only [Interval.union]
    split <;> assumption
  · simp only [Interval.union]
    split <;> assumption

theorem iunion_sub_left {i j : Interval} (hi : i.IsNum) (hj : j.IsNum) :
    ISub i (Interval.union i j) := by
  rcases hi with ⟨hi1, hi2⟩
  rcases hj with ⟨hj1, hj2⟩
  constructor
  · simp only [Interval.union]
    split
    · exact efLe_refl hi1
    · rename_i hle
      rcases efLe_total hi1 hj1 with ht | ht
      · exact absurd ht hle
      · exact ht
  · simp only [Interval.union]
    split
    · exact efLe_refl hi2
    · rename_i hle
      rcases efLe_total hj2 hi2 with ht | ht
      · exact absurd ht hle
      · exact ht

theorem iunion_sub_right {i j : Interval} (hi : i.IsNum) (hj : j.IsNum) :
    ISub j (Interval.union i j) := by
  rcases hi with ⟨hi1, hi2⟩
  rcases hj with ⟨hj1, hj2⟩
  constructor
  · simp only [Interval.union]
    split
    · assumption
    · exact efLe_refl hj1
  · simp only [Interval.union]
    split
    · assumption
    · exact efLe_refl hj2

theorem isub_trans {i j k : Interval} (h1 : ISub i j) (h2 : ISub j k) :
    ISub i k :=
  ⟨efLe_trans h2.1 h1.1, efLe_trans h1.2 h2.2⟩

theorem boxUnion_isnum {a b : AABB} (ha : a.IsNum) (hb : b.IsNum) :
    (AABB.union a b).IsNum :=
  ⟨iunion_isnum ha.1 hb.1, iunion_isnum ha.2.1 hb.2.1, iunion_isnum ha.2.2 hb.2.2⟩

theorem boxUnion_sub_left {a b : AABB} (ha : a.IsNum) (hb : b.IsNum) :
    BoxSub a (AABB.union a b) :=
  ⟨iunion_sub_left ha.1 hb.1, iunion_sub_left ha.2.1 hb.2.1,
   iunion_sub_left ha.2.2 hb.2.2⟩

theorem boxUnion_sub_right {a b : AABB} (ha : a.IsNum) (hb : b.IsNum) :
    BoxSub b (AABB.union a b) :=
  ⟨iunion_sub_right ha.1 hb.1, iunion_sub_right ha.2.1 hb.2.1,
   iunion_sub_right ha.2.2 hb.2.2⟩

theorem boxSub_trans {a b c : AABB} (h1 : BoxSub a b) (h2 : BoxSub b c) :
    BoxSub a c :=
  ⟨isub_trans h1.1 h2.1, isub_trans h1.2.1 h2.2.1, isub_trans h1.2.2 h2.2.2⟩

theorem aabbEmpty_isnum : AABB.EMPTY.IsNum :=
  ⟨⟨trivial, trivial⟩, ⟨trivial, trivial⟩, ⟨trivial, trivial⟩⟩

theorem boxIsFin_isnum {b : AABB} (h : b.IsFin) : b.IsNum := by
  rcases b with ⟨⟨a1, a2⟩, ⟨a3, a4⟩, ⟨a5, a6⟩⟩
  rcases h with ⟨⟨h1, h2⟩, ⟨h3, h4⟩, ⟨h5, h6⟩⟩
  obtain ⟨q1, rfl⟩ := efIsFin_iff.mp h1
  obtain ⟨q2, rfl⟩ := efIsFin_iff.mp h2
  obtain ⟨q3, rfl⟩ := efIsFin_iff.mp h3
  obtain ⟨q4, rfl⟩ := efIsFin_iff.mp h4
  obtain ⟨q5, rfl⟩ := efIsFin_iff.mp h5
  obtain ⟨q6, rfl⟩ := efIsFin_iff.mp h6
  exact ⟨⟨trivial, trivial⟩, ⟨trivial, trivial⟩, ⟨trivial, trivial⟩⟩

/-- The running box of the bounding-box fold only grows. -/
theorem foldBox_sub_acc (ps : List Prim) :
    ∀ acc : AABB, acc.IsNum → (∀ p ∈ ps, p.bbox.IsNum) →
      BoxSub acc (ps.foldl (fun bb object => AABB.union bb object.bbox) acc) := by
  induction ps with
  | nil =>
    intro acc hacc _
    exact ⟨⟨efLe_refl hacc.1.1, efLe_refl hacc.1.2⟩,
      ⟨efLe_refl hacc.2.1.1, efLe_refl hacc.2.1.2⟩,
      ⟨efLe_refl hacc.2.2.1, efLe_refl hacc.2.2.2⟩⟩
  | cons p t ih =>
    intro acc hacc hps
    have hp : p.bbox.IsNum := hps p (by simp)
    have hstep : BoxSub acc (AABB.union acc p.bbox) := boxUnion_sub_left hacc hp
    have hrest := ih (AABB.union acc p.bbox) (boxUnion_isnum hacc hp)
      (fun q hq => hps q (by simp [hq]))
    exact boxSub_trans hstep hrest

theorem foldBox_isnum (ps : List Prim) :
    ∀ acc : AABB, acc.IsNum → (∀ p ∈ ps, p.bbox.IsNum) →
      (ps.foldl (fun bb object => AABB.union bb object.bbox) acc).IsNum := by
  induction ps with
  | nil => intro acc hacc _; exact hacc
  | cons p t ih =>
    intro acc hacc hps
    exact ih _ (boxUnion_isnum hacc (hps p (by simp)))
      (fun q hq => hps q (by simp [hq]))

/-- Every member's box is contained in the fold of the boxes. -/
theorem foldBox_sub_mem {ps : List Prim} {p : Prim} (hmem : p ∈ ps) :
    ∀ acc : AABB, acc.IsNum → (∀ q ∈ ps, q.bbox.IsNum) →
      BoxSub p.bbox (ps.foldl (fun bb object => AABB.union bb object.bbox) acc) := by
  induction ps with
  | nil => cases hmem
  | cons q t ih =>
    intro acc hacc hps
    have hq : q.bbox.IsNum := hps q (by simp)
    rcases List.mem_cons.mp hmem with rfl | hmem'
    · have hstep : BoxSub p.bbox (AABB.union acc p.bbox) :=
        boxUnion_sub_right hacc hq
      have hrest := foldBox_sub_acc t (AABB.union acc p.bbox)
        (boxUnion_isnum hacc hq) (fun w hw => hps w (by simp [hw]))
      exact boxSub_trans hstep hrest
    · exact ih hmem' (AABB.union acc q.bbox) (boxUnion_isnum hacc hq)
        (fun w hw => hps w (by simp [hw]))

/-! ### Claim C1: consequences of the `Hittable` contract -/

theorem surrounds_iff {I : Interval} {x : EF} :
    I.surrounds x = true ↔ EF.lt I.min x = true ∧ EF.lt x I.max = true := by
  simp [Interval.surrounds]

/-- A hit on a narrowed interval is also the hit on the wide interval. -/
theorem wb_narrow_some_inv {p : Prim} (hp : WellBehaved p) {r : Ray}
    {m M M' : EF} {rec : HitRec} (hhit : p.hit r ⟨m, M'⟩ = some rec)
    (hle : EF.le M' M = true) : p.hit r ⟨m, M⟩ = some rec := by
  have hsur := hp.surr r ⟨m, M'⟩ rec hhit
  have hltM' : EF.lt (EF.fin rec.t) M' = true := (surrounds_iff.mp hsur).2
  cases hMhit : p.hit r ⟨m, M⟩ with
  | none =>
    have := hp.mono r m M M' hMhit hle
    rw [this] at hhit
    cases hhit
  | some rec2 =>
    by_cases hlt : EF.lt (EF.fin rec2.t) M' = true
    · have := hp.keep r m M M' rec2 hMhit hlt hle
      rw [this] at hhit
      injection hhit with h
      rw [h]
    · have hM'num : M'.IsNum := (efLt_num hltM').2
      have hltfalse : EF.lt (EF.fin rec2.t) M' = false := by
        cases h : EF.lt (EF.fin rec2.t) M'
        · rfl
        · exact absurd h hlt
      have hcutle : EF.le M' (EF.fin rec2.t) = true :=
        efNot_lt (by trivial) hM'num hltfalse
      have := hp.cut r m M M' rec2 hMhit hcutle hle
      rw [this] at hhit
      cases hhit

/-- If the narrowed query reports nothing, any wide-interval hit is at or
beyond the narrowed bound. -/
theorem wb_narrow_none_bound {p : Prim} (hp : WellBehaved p) {r : Ray}
    {m M M' : EF} {rec : HitRec} (hnone : p.hit r ⟨m, M'⟩ = none)
    (hle : EF.le M' M = true) (hhit : p.hit r ⟨m, M⟩ = some rec) :
    EF.lt (EF.fin rec.t) M' = false := by
  cases h : EF.lt (EF.fin rec.t) M'
  · rfl
  · have := hp.keep r m M M' rec hhit h hle
    rw [this] at hnone
    cases hnone

/-! ### Claim C1: optimality of the linear scan -/

theorem isBest_perm {ps ps' : List Prim} (hperm : ps.Perm ps') {r : Ray}
    {I : Interval} {res : Option HitRec} (h : IsBest ps r I res) :
    IsBest ps' r I res := by
  cases res with
  | none =>
    intro p hp
    exact h p (hperm.mem_iff.mpr hp)
  | some b =>
    obtain ⟨⟨p, hpmem, hphit⟩, hsur, hmin⟩ := h
    exact ⟨⟨p, hperm.mem_iff.mp hpmem, hphit⟩, hsur,
      fun q hq rec hrec => hmin q (hperm.mem_iff.mpr hq) rec hrec⟩

theorem isBest_unique {ps : List Prim} {r : Ray} {I : Interval}
    {o1 o2 : Option HitRec} (h1 : IsBest ps r I o1) (h2 : IsBest ps r I o2) :
    Option.map HitRec.t o1 = Option.map HitRec.t o2 := by
  cases o1 with
  | none =>
    cases o2 with
    | none => rfl
    | some b2 =>
      obtain ⟨⟨p, hpmem, hphit⟩, _, _⟩ := h2
      rw [h1 p hpmem] at hphit
      cases hphit
  | some b1 =>
    cases o2 with
    | none =>
      obtain ⟨⟨p, hpmem, hphit⟩, _, _⟩ := h1
      rw [h2 p hpmem] at hphit
      cases hphit
    | some b2 =>
      obtain ⟨⟨p1, hp1mem, hp1hit⟩, _, hmin1⟩ := h1
      obtain ⟨⟨p2, hp2mem, hp2hit⟩, _, hmin2⟩ := h2
      have hle1 : b1.t ≤ b2.t := hmin1 p2 hp2mem b2 hp2hit
      have hle2 : b2.t ≤ b1.t := hmin2 p1 hp1mem b1 hp1hit
      simp [le_antisymm hle1 hle2]

/-- One step of the scan fold preserves the invariant. -/
theorem scan_step {r : Ray} {I : Interval} {processed : List Prim}
    {st : EF × Option HitRec} (p : Prim) (hp : WellBehaved p)
    (hinv : ScanInv r I processed st) :
    ScanInv r I (processed ++ [p])
      (match p.hit r (Interval.new I.min st.1) with
        | some temp_rec => (EF.fin temp_rec.t, some temp_rec)
        | none => st) := by
  rcases st with ⟨c, cur⟩
  cases cur with
  | none =>
    obtain ⟨hc, hall⟩ := hinv
    subst hc
    have hIeta : Interval.new I.min I.max = I := rfl
    cases hhit : p.hit r (Interval.new I.min I.max) with
    | none =>
      refine ⟨rfl, fun q hq => ?_⟩
      rcases List.mem_append.mp hq with hq' | hq'
      · exact hall q hq'
      · rcases List.mem_singleton.mp hq'
        rw [← hIeta]
        exact hhit
    | some tr =>
      rw [hIeta] at hhit
      refine ⟨rfl, ⟨p, by simp, hhit⟩, hp.surr r I tr hhit, ?_⟩
      intro q hq rec hrec
      rcases List.mem_append.mp hq with hq' | hq'
      · rw [hall q hq'] at hrec
        cases hrec
      · rcases List.mem_singleton.mp hq'
        rw [hhit] at hrec
        injection hrec with h
        rw [h]
  | some b =>
    obtain ⟨hc, ⟨pb, hpbmem, hpbhit⟩, hsur, hmin⟩ := hinv
    subst hc
    have hbM : EF.le (EF.fin b.t) I.max = true :=
      efLt_imp_le (surrounds_iff.mp hsur).2
    have hIeta : (⟨I.min, I.max⟩ : Interval) = I := rfl
    cases hhit : p.hit r (Interval.new I.min (EF.fin b.t)) with
    | none =>
      refine ⟨rfl, ⟨pb, by simp [hpbmem], hpbhit⟩, hsur, ?_⟩
      intro q hq rec hrec
      rcases List.mem_append.mp hq with hq' | hq'
      · exact hmin q hq' rec hrec
      · rcases List.mem_singleton.mp hq'
        have hb := wb_narrow_none_bound hp hhit (hIeta ▸ hbM) (hIeta ▸ hrec)
        have : ¬(rec.t < b.t) := by
          intro hcon
          rw [efLt_fin.mpr hcon] at hb
          cases hb
        exact le_of_not_lt this
    | some tr =>
      have hsurN := hp.surr r _ tr hhit
      have htr_lt : tr.t < b.t := efLt_fin.mp (surrounds_iff.mp hsurN).2
      have hwide : p.hit r I = some tr := by
        have := wb_narrow_some_inv hp hhit (hIeta ▸ hbM)
        rw [hIeta] at this
        exact this
      refine ⟨rfl, ⟨p, by simp, hwide⟩, hp.surr r I tr hwide, ?_⟩
      intro q hq rec hrec
      rcases List.mem_append.mp hq with hq' | hq'
      · exact le_of_lt (lt_of_lt_of_le htr_lt (hmin q hq' rec hrec))
      · rcases List.mem_singleton.mp hq'
        rw [hwide] at hrec
        injection hrec with h
        rw [h]

/-- The scan fold carries the invariant across any suffix. -/
theorem scan_fold {r : Ray} {I : Interval} :
    ∀ (rest processed : List Prim) (st : EF × Option HitRec),
      (∀ p ∈ rest, WellBehaved p) → ScanInv r I processed st →
      ScanInv r I (processed ++ rest)
        (rest.foldl
          (fun acc object =>
            match object.hit r (Interval.new I.min acc.1) with
            | some temp_rec => (EF.fin temp_rec.t, some temp_rec)
            | none => acc) st) := by
  intro rest
  induction rest with
  | nil =>
    intro processed st _ hinv
    simpa using hinv
  | cons p t ih =>
    intro processed st hwb hinv
    have hstep := scan_step p (hwb p (by simp)) hinv
    have := ih (processed ++ [p]) _ (fun q hq => hwb q (by simp [hq])) hstep
    simpa [List.append_assoc] using this

/-- `HittableList::hit` returns an optimal hit. -/
theorem listHit_isBest (ps : List Prim) (r : Ray) (I : Interval)
    (hwb : ∀ p ∈ ps, WellBehaved p) : IsBest ps r I (listHit ps r I) := by
  have hinit : ScanInv r I [] ((I.max, none) : EF × Option HitRec) :=
    ⟨rfl, by simp⟩
  have hfold := scan_fold ps [] ((I.max, none) : EF × Option HitRec) hwb hinit
  simp only [List.nil_append] at hfold
  unfold listHit
  set st := ps.foldl
    (fun acc object =>
      match object.hit r (Interval.new I.min acc.1) with
      | some temp_rec => (EF.fin temp_rec.t, some temp_rec)
      | none => acc) ((I.max, none) : EF × Option HitRec) with hst
  clear_value st
  rcases st with ⟨c, cur⟩
  cases cur with
  | none => exact hfold.2
  | some b => exact ⟨hfold.2.1, hfold.2.2.1, hfold.2.2.2⟩

/-! ### Claim C1: optimality of the BVH traversal -/

/-- `BVHNode::hit` returns an optimal hit over the leaves of the node,
provided every node box covers the boxes of the primitives below it. -/
theorem bvhHit_isBest (t : BVHTree) :
    ∀ (r : Ray) (I : Interval), Covers t → (∀ p ∈ t.leaves, WellBehaved p) →
      IsBest t.leaves r I (bvhHit t r I) := by
  induction t with
  | leaf bb p =>
    intro r I hc hwb
    have hp : WellBehaved p := hwb p (by simp [BVHTree.leaves])
    rw [bvhHit]
    split
    · cases hhit : p.hit r I with
      | none =>
        intro q hq
        have hq' : q = p := by simpa [BVHTree.leaves] using hq
        rw [hq']
        exact hhit
      | some rec =>
        refine ⟨⟨p, by simp [BVHTree.leaves], hhit⟩, hp.surr r I rec hhit, ?_⟩
        intro q hq rec' hrec'
        have hq' : q = p := by simpa [BVHTree.leaves] using hq
        rw [hq'] at hrec'
        rw [hhit] at hrec'
        injection hrec' with h
        rw [h]
    · rename_i hbb
      intro q hq
      have hq' : q = p := by simpa [BVHTree.leaves] using hq
      rw [hq']
      cases hq2 : p.hit r I with
      | none => rfl
      | some rec => exact absurd (hp.cons r I rec bb hc hq2) hbb
  | node bb l rr ihl ihr =>
    intro r I hc hwb
    obtain ⟨hsub, hcl, hcr⟩ := hc
    have hwbl : ∀ p ∈ l.leaves, WellBehaved p := fun p hp =>
      hwb p (by simp [BVHTree.leaves, hp])
    have hwbr : ∀ p ∈ rr.leaves, WellBehaved p := fun p hp =>
      hwb p (by simp [BVHTree.leaves, hp])
    have hleaves : (BVHTree.node bb l rr).leaves = l.leaves ++ rr.leaves := rfl
    rw [bvhHit]
    split
    · rename_i hbb
      cases hL : bvhHit l r I with
      | some lrec =>
        have hbl := ihl r I hcl hwbl
        rw [hL] at hbl
        obtain ⟨⟨pl, hplmem, hplhit⟩, hsurl, hminl⟩ := hbl
        have hlM : EF.le (EF.fin lrec.t) I.max = true :=
          efLt_imp_le (surrounds_iff.mp hsurl).2
        have hbr := ihr r (Interval.new I.min (EF.fin lrec.t)) hcr hwbr
        simp only [hL]
        cases hR : bvhHit rr r (Interval.new I.min (EF.fin lrec.t)) with
        | some rrec =>
          rw [hR] at hbr
          obtain ⟨⟨pr, hprmem, hprhit⟩, hsurr, hminr⟩ := hbr
          have hrt_lt : rrec.t < lrec.t := efLt_fin.mp (surrounds_iff.mp hsurr).2
          have hwide : pr.hit r I = some rrec :=
            wb_narrow_some_inv (hwbr pr hprmem) hprhit hlM
          rw [hleaves]
          simp only [Option.or]
          refine ⟨⟨pr, by simp [hprmem], hwide⟩,
            (hwbr pr hprmem).surr r I rrec hwide, ?_⟩
          intro q hq rec' hrec'
          rcases List.mem_append.mp hq with hq' | hq'
          · exact le_of_lt (lt_of_lt_of_le hrt_lt (hminl q hq' rec' hrec'))
          · by_cases hcase : rec'.t < lrec.t
            · have hnarrow : q.hit r (Interval.new I.min (EF.fin lrec.t)) =
                  some rec' :=
                (hwbr q hq').keep r I.min I.max (EF.fin lrec.t) rec' hrec'
                  (efLt_fin.mpr hcase) hlM
              exact hminr q hq' rec' hnarrow
            · exact le_of_lt (lt_of_lt_of_le hrt_lt (le_of_not_lt hcase))
        | none =>
          rw [hR] at hbr
          rw [hleaves]
          simp only [Option.or]
          refine ⟨⟨pl, by simp [hplmem], hplhit⟩, hsurl, ?_⟩
          intro q hq rec' hrec'
          rcases List.mem_append.mp hq with hq' | hq'
          · exact hminl q hq' rec' hrec'
          · have hb := wb_narrow_none_bound (hwbr q hq') (hbr q hq') hlM hrec'
            have : ¬(rec'.t < lrec.t) := by
              intro hcon
              rw [efLt_fin.mpr hcon] at hb
              cases hb
            exact le_of_not_lt this
      | none =>
        have hbl := ihl r I hcl hwbl
        rw [hL] at hbl
        have hbr := ihr r I hcr hwbr
        simp only [hL]
        cases hR : bvhHit rr r I with
        | some rrec =>
          rw [hR] at hbr
          obtain ⟨⟨pr, hprmem, hprhit⟩, hsurr, hminr⟩ := hbr
          rw [hleaves]
          refine ⟨⟨pr, by simp [hprmem], hprhit⟩, hsurr, ?_⟩
          intro q hq rec' hrec'
          rcases List.mem_append.mp hq with hq' | hq'
          · rw [hbl q hq'] at hrec'
            cases hrec'
          · exact hminr q hq' rec' hrec'
        | none =>
          rw [hR] at hbr
          rw [hleaves]
          intro q hq
          rcases List.mem_append.mp hq with hq' | hq'
          · exact hbl q hq'
          · exact hbr q hq'
    · rename_i hbb
      rw [hleaves]
      intro q hq
      cases hq2 : q.hit r I with
      | none => rfl
      | some rec =>
        exact absurd ((hwb q (by simpa [BVHTree.leaves] using hq)).cons r I rec bb
          (hsub q hq) hq2) hbb

/-! ### Claim C1: the build invariant -/

/-- A successful build yields a tree whose every node box covers the boxes
below it, and whose leaves are a permutation of the input segment. -/
theorem bvhNew_covers :
    ∀ (fuel : ℕ) (ps : List Prim) (t : BVHTree),
      (∀ p ∈ ps, p.bbox.IsNum) → bvhNew fuel ps = some t →
      Covers t ∧ t.leaves.Perm ps := by
  intro fuel
  induction fuel with
  | zero => intro ps t _ h; cases h
  | succ n ih =>
    intro ps t hnum hbuild
    cases ps with
    | nil => rw [bvhNew_nil] at hbuild; cases hbuild
    | cons p1 tl =>
    cases tl with
    | nil =>
      rw [bvhNew] at hbuild
      injection hbuild with h
      subst h
      refine ⟨?_, List.Perm.refl _⟩
      exact foldBox_sub_mem (by simp) AABB.EMPTY aabbEmpty_isnum hnum
    | cons p2 rest =>
      rw [bvhNew] at hbuild
      rotate_left
      · intro object hobj
        simp at hobj
      set axis := (List.foldl (fun bb object => AABB.union bb object.bbox)
        AABB.EMPTY (p1 :: p2 :: rest)).longest_axis with haxis
      set sorted := sortBy (boxCompareLe axis) (p1 :: p2 :: rest) with hsorted
      set mid := (p1 :: p2 :: rest).length / 2 with hmid
      have hsortmem : ∀ p ∈ sorted, p ∈ p1 :: p2 :: rest := fun p hp =>
        (sortBy_perm (boxCompareLe axis) (p1 :: p2 :: rest)).mem_iff.mp hp
      have htakenum : ∀ p ∈ List.take mid sorted, p.bbox.IsNum := fun p hp =>
        hnum p (hsortmem p (List.take_subset _ _ hp))
      have hdropnum : ∀ p ∈ List.drop mid sorted, p.bbox.IsNum := fun p hp =>
        hnum p (hsortmem p (List.drop_subset _ _ hp))
      cases hl : bvhNew n (List.take mid sorted) with
      | none => rw [hl] at hbuild; cases hbuild
      | some tL =>
      cases hr : bvhNew n (List.drop mid sorted) with
      | none => rw [hl, hr] at hbuild; cases hbuild
      | some tR =>
        rw [hl, hr] at hbuild
        injection hbuild with h
        subst h
        obtain ⟨hcovL, hpermL⟩ := ih _ tL htakenum hl
        obtain ⟨hcovR, hpermR⟩ := ih _ tR hdropnum hr
        have hleafmem : ∀ p ∈ tL.leaves ++ tR.leaves, p ∈ p1 :: p2 :: rest := by
          intro p hp
          rcases List.mem_append.mp hp with hp' | hp'
          · exact hsortmem p (List.take_subset _ _ (hpermL.mem_iff.mp hp'))
          · exact hsortmem p (List.drop_subset _ _ (hpermR.mem_iff.mp hp'))
        constructor
        · refine ⟨?_, hcovL, hcovR⟩
          intro p hp
          exact foldBox_sub_mem (hleafmem p hp) AABB.EMPTY aabbEmpty_isnum hnum
        · have h1 : (tL.leaves ++ tR.leaves).Perm
              (List.take mid sorted ++ List.drop mid sorted) :=
            hpermL.append hpermR
          rw [List.take_append_drop] at h1
          exact h1.trans (sortBy_perm _ _)

/-! ### Claim C1: the main equivalence -/

/-- Claim C1 amended: for every list of well-behaved primitives with
finite bounding boxes (`surr`/`cons`/`keep`/`cut`/`mono` are the implicit
`Hittable` contract the renderer's primitives provide: hits lie strictly
inside the queried interval, bounding boxes are conservative, and hits are
stable under shrinking the upper bound), for every ray and query interval,
the BVH traversal of any tree built from the list reports a hit exactly
when the brute-force linear scan does, with the same parametric `t`
(hence the same hit point `ray.at(t)`).  The reported *primitive* may
differ when two primitives hit at exactly the same `t`: the scan keeps the
first in list order, the traversal the leftmost in sorted order (see the
counterexample). -/
theorem c1_bvh_equals_list (ps : List Prim) (fuel : ℕ) (tree : BVHTree)
    (r : Ray) (I : Interval)
    (hwb : ∀ p ∈ ps, WellBehaved p) (hfin : ∀ p ∈ ps, p.bbox.IsFin)
    (hbuild : bvhNew fuel ps = some tree) :
    Option.map HitRec.t (bvhHit tree r I) = Option.map HitRec.t (listHit ps r I) ∧
    (bvhHit tree r I = none ↔ listHit ps r I = none) := by
  have hnum : ∀ p ∈ ps, p.bbox.IsNum := fun p hp => boxIsFin_isnum (hfin p hp)
  obtain ⟨hcov, hperm⟩ := bvhNew_covers fuel ps tree hnum hbuild
  have hwbt : ∀ p ∈ tree.leaves, WellBehaved p := fun p hp =>
    hwb p (hperm.mem_iff.mp hp)
  have h1 := bvhHit_isBest tree r I hcov hwbt
  have h1' := isBest_perm hperm h1
  have h2 := listHit_isBest ps r I hwb
  have hmap := isBest_unique h1' h2
  refine ⟨hmap, ?_⟩
  constructor
  · intro h
    rw [h] at hmap
    exact Option.map_eq_none'.mp hmap.symm
  · intro h
    rw [h] at hmap
    exact Option.map_eq_none'.mp hmap

theorem nonePrim_hit (r : Ray) (rt : Interval) : nonePrim.hit r rt = none := rfl

theorem nonePrim_wb : WellBehaved nonePrim where
  surr := fun _ _ _ h => Option.noConfusion h
  cons := fun _ _ _ _ _ h => Option.noConfusion h
  keep := fun _ _ _ _ _ h _ _ => Option.noConfusion h
  cut := fun _ _ _ _ _ h _ _ => Option.noConfusion h
  mono := fun _ _ _ _ _ _ => rfl

theorem nonePrim_bbox :
    nonePrim.bbox = ⟨⟨EF.fin 0, EF.fin 1⟩, ⟨EF.fin 0, EF.fin 1⟩,
      ⟨EF.fin 0, EF.fin 1⟩⟩ := by
  norm_num [nonePrim, AABB.fromPoints, AABB.pad_to_minimums, Interval.size,
    Interval.expand, Interval.new, EF.sub, EF.neg, EF.add, EF.lt]

/-- The tree built from two copies of the trivial primitive. -/
theorem nonePrim_build :
    bvhNew 2 [nonePrim, nonePrim] =
      some (BVHTree.node
        ⟨⟨EF.fin 0, EF.fin 1⟩, ⟨EF.fin 0, EF.fin 1⟩, ⟨EF.fin 0, EF.fin 1⟩⟩
        (BVHTree.leaf ⟨⟨EF.fin 0, EF.fin 1⟩, ⟨EF.fin 0, EF.fin 1⟩,
          ⟨EF.fin 0, EF.fin 1⟩⟩ nonePrim)
        (BVHTree.leaf ⟨⟨EF.fin 0, EF.fin 1⟩, ⟨EF.fin 0, EF.fin 1⟩,
          ⟨EF.fin 0, EF.fin 1⟩⟩ nonePrim)) := by
  norm_num [bvhNew, sortBy, insertSorted, boxCompareLe, EF.totalLe,
    AABB.union, Interval.union, AABB.EMPTY, Interval.EMPTY,
    AABB.longest_axis, AABB.axis_interval, Interval.size, EF.sub, EF.neg,
    EF.add, EF.le, EF.lt, nonePrim_bbox]

/-- Witness for the amended C1: the equivalence instantiated on a concrete
two-primitive scene, a concrete ray and the integrator's query interval. -/
theorem c1_bvh_equals_list_witness :
    Option.map HitRec.t
      (bvhHit (BVHTree.node
        ⟨⟨EF.fin 0, EF.fin 1⟩, ⟨EF.fin 0, EF.fin 1⟩, ⟨EF.fin 0, EF.fin 1⟩⟩
        (BVHTree.leaf ⟨⟨EF.fin 0, EF.fin 1⟩, ⟨EF.fin 0, EF.fin 1⟩,
          ⟨EF.fin 0, EF.fin 1⟩⟩ nonePrim)
        (BVHTree.leaf ⟨⟨EF.fin 0, EF.fin 1⟩, ⟨EF.fin 0, EF.fin 1⟩,
          ⟨EF.fin 0, EF.fin 1⟩⟩ nonePrim))
        ⟨⟨0, 0, 0⟩, ⟨0, 0, -1⟩, 0⟩ ⟨EF.fin (1 / 1000), EF.posInf⟩) =
    Option.map HitRec.t
      (listHit [nonePrim, nonePrim] ⟨⟨0, 0, 0⟩, ⟨0, 0, -1⟩, 0⟩
        ⟨EF.fin (1 / 1000), EF.posInf⟩) := by
  refine (c1_bvh_equals_list [nonePrim, nonePrim] 2 _ _ _ ?_ ?_ nonePrim_build).1
  · intro p hp
    have hp' : p = nonePrim := by simpa using hp
    subst hp'
    exact nonePrim_wb
  · intro p hp
    have hp' : p = nonePrim := by simpa using hp
    subst hp'
    rw [nonePrim_bbox]
    exact ⟨⟨trivial, trivial⟩, ⟨trivial, trivial⟩, ⟨trivial, trivial⟩⟩

/-- Counterexample to claim C1 as stated: the two spheres of `tiePrims`
are both met by the ray from the origin along `-z` at exactly `t = 1`.
The brute-force scan returns the first sphere in list order (identity 0);
the BVH sorts the segment by bounding-box minimum along the longest axis,
putting the other sphere in the left subtree, and returns it (identity 1).
The parametric `t` (hence the hit point) agrees, but the *primitive* — as
the claim demands — does not. -/
theorem c1_counterexample :
    ((bvhNew 2 tiePrims).bind fun t =>
        bvhHit t ⟨⟨0, 0, 0⟩, ⟨0, 0, -1⟩, 0⟩
          ⟨EF.fin (1 / 1000), EF.posInf⟩).map HitRec.id = some 1 ∧
    (listHit tiePrims ⟨⟨0, 0, 0⟩, ⟨0, 0, -1⟩, 0⟩
        ⟨EF.fin (1 / 1000), EF.posInf⟩).map HitRec.id = some 0 ∧
    ((bvhNew 2 tiePrims).bind fun t =>
        bvhHit t ⟨⟨0, 0, 0⟩, ⟨0, 0, -1⟩, 0⟩
          ⟨EF.fin (1 / 1000), EF.posInf⟩).map HitRec.t = some 1 ∧
    (listHit tiePrims ⟨⟨0, 0, 0⟩, ⟨0, 0, -1⟩, 0⟩
        ⟨EF.fin (1 / 1000), EF.posInf⟩).map HitRec.t = some 1 := by
  have hns16 : RR.natSqrt 16 = 4 := by decide
  have hns1 : RR.natSqrt 1 = 1 := by decide
  have his16 : RR.intSqrt 16 = 4 := by decide
  have hsq : ratSqrt 16 = 4 := by norm_num [ratSqrt, hns16, hns1, his16]
  have hhit0I : (spherePrim ⟨0, 3, -5⟩ 5 0).hit ⟨⟨0, 0, 0⟩, ⟨0, 0, -1⟩, 0⟩
      ⟨EF.fin (1 / 1000), EF.posInf⟩ = some ⟨1, 0⟩ := by
    norm_num [spherePrim, Sphere.hit, Sphere.discriminant, Sphere.qh,
      Sphere.qa, Sphere.qc, Sphere.hitCenter, Sphere.new, Sphere.root1,
      Sphere.root2, Sphere.buildRec, Interval.surrounds, EF.lt, Vec3.dot,
      Vec3.length_squared, vec_sub_def, vec_add_def, Vec3.smul, Ray.atT,
      Vec3.divs, hsq]
  have hhit1I : (spherePrim ⟨0, -3, -5⟩ 5 1).hit ⟨⟨0, 0, 0⟩, ⟨0, 0, -1⟩, 0⟩
      ⟨EF.fin (1 / 1000), EF.posInf⟩ = some ⟨1, 1⟩ := by
    norm_num [spherePrim, Sphere.hit, Sphere.discriminant, Sphere.qh,
      Sphere.qa, Sphere.qc, Sphere.hitCenter, Sphere.new, Sphere.root1,
      Sphere.root2, Sphere.buildRec, Interval.surrounds, EF.lt, Vec3.dot,
      Vec3.length_squared, vec_sub_def, vec_add_def, Vec3.smul, Ray.atT,
      Vec3.divs, hsq]
  have hhit0N : (spherePrim ⟨0, 3, -5⟩ 5 0).hit ⟨⟨0, 0, 0⟩, ⟨0, 0, -1⟩, 0⟩
      ⟨EF.fin (1 / 1000), EF.fin 1⟩ = none := by
    norm_num [spherePrim, Sphere.hit, Sphere.discriminant, Sphere.qh,
      Sphere.qa, Sphere.qc, Sphere.hitCenter, Sphere.new, Sphere.root1,
      Sphere.root2, Sphere.buildRec, Interval.surrounds, EF.lt, Vec3.dot,
      Vec3.length_squared, vec_sub_def, vec_add_def, Vec3.smul, Ray.atT,
      Vec3.divs, hsq]
  have hhit1N : (spherePrim ⟨0, -3, -5⟩ 5 1).hit ⟨⟨0, 0, 0⟩, ⟨0, 0, -1⟩, 0⟩
      ⟨EF.fin (1 / 1000), EF.fin 1⟩ = none := by
    norm_num [spherePrim, Sphere.hit, Sphere.discriminant, Sphere.qh,
      Sphere.qa, Sphere.qc, Sphere.hitCenter, Sphere.new, Sphere.root1,
      Sphere.root2, Sphere.buildRec, Interval.surrounds, EF.lt, Vec3.dot,
      Vec3.length_squared, vec_sub_def, vec_add_def, Vec3.smul, Ray.atT,
      Vec3.divs, hsq]
  have hbox0 : (spherePrim ⟨0, 3, -5⟩ 5 0).bbox =
      ⟨⟨EF.fin (-5), EF.fin 5⟩, ⟨EF.fin (-2), EF.fin 8⟩,
        ⟨EF.fin (-10), EF.fin 0⟩⟩ := by
    norm_num [spherePrim, AABB.fromPoints, AABB.pad_to_minimums,
      Interval.size, Interval.expand, Interval.new, EF.sub, EF.neg, EF.add,
      EF.lt, vec_sub_def, vec_add_def, vec_neg_def]
  have hbox1 : (spherePrim ⟨0, -3, -5⟩ 5 1).bbox =
      ⟨⟨EF.fin (-5), EF.fin 5⟩, ⟨EF.fin (-8), EF.fin 2⟩,
        ⟨EF.fin (-10), EF.fin 0⟩⟩ := by
    norm_num [spherePrim, AABB.fromPoints, AABB.pad_to_minimums,
      Interval.size, Interval.expand, Interval.new, EF.sub, EF.neg, EF.add,
      EF.lt, vec_sub_def, vec_add_def, vec_neg_def]
  have hbuild : bvhNew 2 tiePrims =
      some (BVHTree.node
        ⟨⟨EF.fin (-5), EF.fin 5⟩, ⟨EF.fin (-8), EF.fin 8⟩,
          ⟨EF.fin (-10), EF.fin 0⟩⟩
        (BVHTree.leaf ⟨⟨EF.fin (-5), EF.fin 5⟩, ⟨EF.fin (-8), EF.fin 2⟩,
          ⟨EF.fin (-10), EF.fin 0⟩⟩ (spherePrim ⟨0, -3, -5⟩ 5 1))
        (BVHTree.leaf ⟨⟨EF.fin (-5), EF.fin 5⟩, ⟨EF.fin (-2), EF.fin 8⟩,
          ⟨EF.fin (-10), EF.fin 0⟩⟩ (spherePrim ⟨0, 3, -5⟩ 5 0))) := by
    norm_num [tiePrims, bvhNew, sortBy, insertSorted, boxCompareLe,
      EF.totalLe, AABB.union, Interval.union, AABB.EMPTY, Interval.EMPTY,
      AABB.longest_axis, AABB.axis_interval, Interval.size, EF.sub, EF.neg,
      EF.add, EF.le, EF.lt, hbox0, hbox1]
  have hNB : AABB.hit
      ⟨⟨EF.fin (-5), EF.fin 5⟩, ⟨EF.fin (-8), EF.fin 8⟩,
        ⟨EF.fin (-10), EF.fin 0⟩⟩ ⟨⟨0, 0, 0⟩, ⟨0, 0, -1⟩, 0⟩
      ⟨EF.fin (1 / 1000), EF.posInf⟩ = true := by
    norm_num [AABB.hit, AABB.slabStep, EF.div, EF.mul, EF.sub, EF.neg,
      EF.add, EF.lt, EF.le]
  have hB1 : AABB.hit
      ⟨⟨EF.fin (-5), EF.fin 5⟩, ⟨EF.fin (-8), EF.fin 2⟩,
        ⟨EF.fin (-10), EF.fin 0⟩⟩ ⟨⟨0, 0, 0⟩, ⟨0, 0, -1⟩, 0⟩
      ⟨EF.fin (1 / 1000), EF.posInf⟩ = true := by
    norm_num [AABB.hit, AABB.slabStep, EF.div, EF.mul, EF.sub, EF.neg,
      EF.add, EF.lt, EF.le]
  have hB0 : AABB.hit
      ⟨⟨EF.fin (-5), EF.fin 5⟩, ⟨EF.fin (-2), EF.fin 8⟩,
        ⟨EF.fin (-10), EF.fin 0⟩⟩ ⟨⟨0, 0, 0⟩, ⟨0, 0, -1⟩, 0⟩
      ⟨EF.fin (1 / 1000), EF.fin 1⟩ = true := by
    norm_num [AABB.hit, AABB.slabStep, EF.div, EF.mul, EF.sub, EF.neg,
      EF.add, EF.lt, EF.le]
  have hL : bvhHit (BVHTree.leaf ⟨⟨EF.fin (-5), EF.fin 5⟩,
      ⟨EF.fin (-8), EF.fin 2⟩, ⟨EF.fin (-10), EF.fin 0⟩⟩
      (spherePrim ⟨0, -3, -5⟩ 5 1)) ⟨⟨0, 0, 0⟩, ⟨0, 0, -1⟩, 0⟩
      ⟨EF.fin (1 / 1000), EF.posInf⟩ = some ⟨1, 1⟩ := by
    rw [bvhHit]
    simp only [hB1, eq_self_iff_true, if_true]
    exact hhit1I
  have hR : bvhHit (BVHTree.leaf ⟨⟨EF.fin (-5), EF.fin 5⟩,
      ⟨EF.fin (-2), EF.fin 8⟩, ⟨EF.fin (-10), EF.fin 0⟩⟩
      (spherePrim ⟨0, 3, -5⟩ 5 0)) ⟨⟨0, 0, 0⟩, ⟨0, 0, -1⟩, 0⟩
      ⟨EF.fin (1 / 1000), EF.fin 1⟩ = none := by
    rw [bvhHit]
    simp only [hB0, eq_self_iff_true, if_true]
    exact hhit0N
  have hbvh : bvhHit (BVHTree.node
      ⟨⟨EF.fin (-5), EF.fin 5⟩, ⟨EF.fin (-8), EF.fin 8⟩,
        ⟨EF.fin (-10), EF.fin 0⟩⟩
      (BVHTree.leaf ⟨⟨EF.fin (-5), EF.fin 5⟩, ⟨EF.fin (-8), EF.fin 2⟩,
        ⟨EF.fin (-10), EF.fin 0⟩⟩ (spherePrim ⟨0, -3, -5⟩ 5 1))
      (BVHTree.leaf ⟨⟨EF.fin (-5), EF.fin 5⟩, ⟨EF.fin (-2), EF.fin 8⟩,
        ⟨EF.fin (-10), EF.fin 0⟩⟩ (spherePrim ⟨0, 3, -5⟩ 5 0)))
      ⟨⟨0, 0, 0⟩, ⟨0, 0, -1⟩, 0⟩ ⟨EF.fin (1 / 1000), EF.posInf⟩ =
      some ⟨1, 1⟩ := by
    rw [bvhHit]
    simp only [hNB, eq_self_iff_true, if_true, hL, Interval.new, hR, Option.or]
  have hlist : listHit tiePrims ⟨⟨0, 0, 0⟩, ⟨0, 0, -1⟩, 0⟩
      ⟨EF.fin (1 / 1000), EF.posInf⟩ = some ⟨1, 0⟩ := by
    simp only [listHit, tiePrims, List.foldl_cons, List.foldl_nil,
      Interval.new, hhit0I, hhit1N]
  refine ⟨?_, ?_, ?_, ?_⟩ <;>
    simp only [hbuild, Option.bind, hbvh, hlist, Option.map]

end RR
